import Mathlib

/-!
# Verification of the similarity-graph construction and 2D layout engine

Shallow embedding of `src/aisafety_pipeline/export_graph.py` (the core of the
repository: neighbour graph construction, per-cluster spanning trees, edge
deduplication, layout dispatch with fallback, coordinate normalisation, and the
spatial declutter pass), together with proofs of the specification's claims
about it.

Modelling conventions:
* Python floats are idealised as exact rationals `ℚ`; `np.sqrt` (which has no
  rational counterpart) is modelled as an explicit square-root oracle passed to
  the definitions that need it, and theorems hypothesise that the oracle is
  exact on the values actually encountered.  `sqrtHints` is a concrete
  instantiation, exact on the perfect squares arising in the concrete
  witnesses and counterexamples (stated and proved alongside them).
* `-np.inf` diagonal masking is modelled with `WithBot ℚ`.
* `heapq` is modelled as a list kept sorted by the lexicographic order on the
  pushed tuples, popping from the head.
* External layout back-ends (networkx spring layout, fa2, umap, sklearn PCA)
  are opaque library calls; they are modelled as oracle functions collected in
  a `Backends` structure.  A back-end raising an exception is modelled by the
  oracle returning `none`.  The `fa2` call site passes no seed, so its oracle
  additionally receives an ambient-randomness argument `entropy`; the seeded
  back-ends receive exactly the seed the code passes them.
-/

namespace ExportGraph

/-- Dot product of two equal-length vectors (`X[i] @ X[j]` for unit-norm rows). -/
def dotl (u v : List ℚ) : ℚ := (List.zipWith (fun a b => a * b) u v).sum

/-- Concrete instantiation of the square-root oracle used by witnesses and
counterexamples: the exact square root of each perfect square they encounter
(exactness is stated and proved where it is used). -/
def sqrtHints (q : ℚ) : ℚ :=
  if q = 1 then 1
  else if q = 1 / 40000 then 1 / 200
  else if q = 9 / 160000 then 3 / 400
  else 0

/-! ## EdgeDeduplicator (`_emit_edge`, step 7 of `export_json_graph`) -/

/-- Canonical unordered form of an index pair: smaller index first
(`a, b = (u, v) if u < v else (v, u)`). -/
def canonPair (u v : ℕ) : ℕ × ℕ := if u < v then (u, v) else (v, u)

/-- State of the dedup fold: the `seen` set of canonical pairs and the
accumulated edge list. -/
structure EmitState where
  seen : Finset (ℕ × ℕ)
  edges : List (ℕ × ℕ × ℚ)
  deriving DecidableEq

/-- `_emit_edge(u, v, sim)`: skip if the canonical pair was seen, otherwise
record it and append `(a, b, sim)`. -/
def emitEdge (st : EmitState) (e : ℕ × ℕ × ℚ) : EmitState :=
  let k := canonPair e.1 e.2.1
  if k ∈ st.seen then st
  else ⟨insert k st.seen, st.edges ++ [(k.1, k.2, e.2.2)]⟩

/-- Step 7 of `export_json_graph`: merge neighbour-graph edges first, then
spanning-tree edges filtered by `sim >= min_sim * 0.5`, deduplicating on the
canonical pair. -/
def dedupEdges (neigh mstE : List (ℕ × ℕ × ℚ)) (minSim : ℚ) : List (ℕ × ℕ × ℚ) :=
  let st1 := neigh.foldl emitEdge ⟨∅, []⟩
  let st2 := (mstE.filter (fun e => minSim * (1/2) ≤ e.2.2)).foldl emitEdge st1
  st2.edges

/-- The weight the merge keeps for a canonical pair: that of the first input
edge (in merge order) whose canonical form matches. -/
def firstWeight (l : List (ℕ × ℕ × ℚ)) (k : ℕ × ℕ) : Option ℚ :=
  (l.find? (fun e => decide (canonPair e.1 e.2.1 = k))).map (fun e => e.2.2)

/-- Proof-support invariant of the dedup fold: `pre` is the part of the input
already folded.  Stored edges are canonical, their pairs are distinct, `seen`
is exactly the set of stored pairs, each stored weight is the first-seen
weight for its pair, no more edges than inputs, and every folded input's
canonical pair is in `seen`. -/
def EmitInv (pre : List (ℕ × ℕ × ℚ)) (st : EmitState) : Prop :=
  (∀ e ∈ st.edges, e.1 ≤ e.2.1) ∧
  (st.edges.map (fun e => (e.1, e.2.1))).Nodup ∧
  st.seen = (st.edges.map (fun e => (e.1, e.2.1))).toFinset ∧
  (∀ e ∈ st.edges, firstWeight pre (e.1, e.2.1) = some e.2.2) ∧
  st.edges.length ≤ pre.length ∧
  (∀ x ∈ pre, canonPair x.1 x.2.1 ∈ st.seen)

/-! ## Coordinate normalisation (lines 313–316 of `export_json_graph`) -/

/-- `arr.min()` over a nonempty list (the code only normalises when `N ≥ 2`). -/
def listMin : List ℚ → ℚ
  | [] => 0
  | x :: xs => xs.foldl min x

/-- `arr.max()` over a nonempty list. -/
def listMax : List ℚ → ℚ
  | [] => 0
  | x :: xs => xs.foldl max x

/-- The epsilon floor `1e-9` used by `np.maximum(maxs - mins, 1e-9)`. -/
def eps9 : ℚ := 1 / 1000000000

/-- Post-layout normalisation: per-axis min and max, range floored at `1e-9`,
then `(coords - mins) / rng`. -/
def normalizeCoords (P : List (ℚ × ℚ)) : List (ℚ × ℚ) :=
  let mnx := listMin (P.map Prod.fst)
  let mxx := listMax (P.map Prod.fst)
  let mny := listMin (P.map Prod.snd)
  let mxy := listMax (P.map Prod.snd)
  let rx := max (mxx - mnx) eps9
  let ry := max (mxy - mny) eps9
  P.map (fun p => ((p.1 - mnx) / rx, (p.2 - mny) / ry))

/-! ## NeighborGraphBuilder (step 5 of `export_json_graph`, global branch)

The `same_cluster_only=False` branch is modelled (the default and the branch
the specification's contract describes); batching (`BATCH`) only bounds peak
memory and does not change the per-row result, so rows are modelled directly.
-/

/-- Similarity of row `i` to candidate `j` after diagonal masking
(`sims_row[i] = -np.inf`); `⊥` models `-inf`. -/
def maskedSim (X : List (List ℚ)) (i j : ℕ) : WithBot ℚ :=
  if j = i then ⊥ else ((dotl (X.getD i []) (X.getD j []) : ℚ) : WithBot ℚ)

/-- Descending order on candidate indices by masked similarity, the
comparator of the executable builder instance that `exportGraph` runs.
`argpartition` + `argsort(-sims_row[top_idx])` leave the relative order of
equal similarities implementation-defined; the stable `insertionSort` under
this comparator realises one admissible outcome of that choice (row index
ascending).  The faithful model quantifying over all admissible outcomes is
`simDescTB`/`neighRowTB` below; `neighRow_eq_tb` places this instance in
that family. -/
def simDesc (X : List (List ℚ)) (i : ℕ) (a b : ℕ) : Prop :=
  maskedSim X i b ≤ maskedSim X i a

instance (X : List (List ℚ)) (i : ℕ) : DecidableRel (simDesc X i) := fun _ _ =>
  inferInstanceAs (Decidable (_ ≤ _))

/-- Row `i` of the neighbour lists as `exportGraph` computes them: take the
`min(top_k, N-1)` most similar candidates, keep those with `sim >= min_sim`
(`if sim < min_sim: continue`), emit `(index, similarity)` in that order.
This fixes the index-ascending tie completion to stay executable; it equals
`neighRowTB tbIdxAsc` (`neighRow_eq_tb`), one member of the faithful family. -/
def neighRow (X : List (List ℚ)) (K : ℕ) (τ : ℚ) (i : ℕ) : List (ℕ × ℚ) :=
  let keff := min K (X.length - 1)
  let sorted := List.insertionSort (simDesc X i) (List.range X.length)
  ((sorted.take keff).filter (fun j => decide ((τ : WithBot ℚ) ≤ maskedSim X i j))).map
    (fun j => (j, (maskedSim X i j).unbot' 0))

/-- All neighbour rows; when `N ≤ 1` the rows stay empty (`if N > 1:` guard). -/
def neighPairs (X : List (List ℚ)) (K : ℕ) (τ : ℚ) : List (List (ℕ × ℚ)) :=
  if X.length ≤ 1 then List.replicate X.length []
  else (List.range X.length).map (neighRow X K τ)

/-- The faithful model of the candidate ordering.  The order numpy produces
among candidates of equal similarity is implementation-defined:
`np.argpartition` (introselect) fixes only which block is selected, up to
ties at the selection boundary, and `np.argsort` with its default unstable
quicksort fixes only the descending arrangement of the similarity values.
Any single run therefore realises the descending similarity order completed
by some total transitive tie order `tb` on row indices, and the builder is
modelled as a family over that completion (analogous to the ambient-entropy
argument of the unseeded fa2 oracle): `simDescTB tb` puts `a` before `b`
when `a`'s similarity is strictly larger, or the similarities are equal and
`tb` prefers `a`. -/
def simDescTB (tb : ℕ → ℕ → Bool) (X : List (List ℚ)) (i : ℕ) (a b : ℕ) : Prop :=
  maskedSim X i b < maskedSim X i a ∨
    (maskedSim X i a = maskedSim X i b ∧ tb a b = true)

instance (tb : ℕ → ℕ → Bool) (X : List (List ℚ)) (i : ℕ) :
    DecidableRel (simDescTB tb X i) := fun _ _ =>
  inferInstanceAs (Decidable (_ ∨ _))

/-- Row `i` of the neighbour lists under the tie-order completion `tb`:
the `min(top_k, N-1)` candidates most similar under `simDescTB tb`, those
with `sim >= min_sim` kept, emitted as `(index, similarity)` in that order. -/
def neighRowTB (tb : ℕ → ℕ → Bool) (X : List (List ℚ)) (K : ℕ) (τ : ℚ) (i : ℕ) :
    List (ℕ × ℚ) :=
  let keff := min K (X.length - 1)
  let sorted := List.insertionSort (simDescTB tb X i) (List.range X.length)
  ((sorted.take keff).filter (fun j => decide ((τ : WithBot ℚ) ≤ maskedSim X i j))).map
    (fun j => (j, (maskedSim X i j).unbot' 0))

/-- All neighbour rows under the completion `tb` (`if N > 1:` guard as in
`neighPairs`). -/
def neighPairsTB (tb : ℕ → ℕ → Bool) (X : List (List ℚ)) (K : ℕ) (τ : ℚ) :
    List (List (ℕ × ℚ)) :=
  if X.length ≤ 1 then List.replicate X.length []
  else (List.range X.length).map (neighRowTB tb X K τ)

/-- The index-ascending tie completion: the admissible run that `neighRow`
(the executable instance `exportGraph` uses) realises, see `neighRow_eq_tb`. -/
def tbIdxAsc : ℕ → ℕ → Bool := fun a b => decide (a ≤ b)

/-- The index-descending tie completion, an equally admissible run of the
unstable sort; on tied similarities it produces the opposite pair order. -/
def tbIdxDesc : ℕ → ℕ → Bool := fun a b => decide (b ≤ a)

/-! ## ConnectivityAugmenter (`_cluster_mst`, step 6)

`heapq` is modelled as a list kept sorted under the lexicographic order on the
pushed tuples `(1 - sim, u, v, sim)`; `heappush` is ordered insertion and
`heappop` takes the head. -/

/-- Heap entries `(1 - sim, u, v, sim)`. -/
abbrev HeapE := ℚ × ℕ × ℕ × ℚ

/-- The lexicographic tuple order `heapq` compares by. -/
def heapLE (a b : HeapE) : Prop :=
  a.1 < b.1 ∨ (a.1 = b.1 ∧ (a.2.1 < b.2.1 ∨ (a.2.1 = b.2.1 ∧
    (a.2.2.1 < b.2.2.1 ∨ (a.2.2.1 = b.2.2.1 ∧ a.2.2.2 ≤ b.2.2.2)))))

instance : DecidableRel heapLE := fun _ _ => by unfold heapLE; infer_instance

/-- Push `(1 - sim, frm, w, sim)` for every `w` in `targets`. -/
def pushEdges (X : List (List ℚ)) (frm : ℕ) (targets : List ℕ) (h : List HeapE) : List HeapE :=
  targets.foldl (fun h w =>
    let sw := dotl (X.getD frm []) (X.getD w [])
    h.orderedInsert heapLE (1 - sw, frm, w, sw)) h

/-- State of the Prim loop: vertices in the tree, the heap, the edges found. -/
structure PrimState where
  tree : Finset ℕ
  heap : List HeapE
  mst : List (ℕ × ℕ × ℚ)

/-- The `while len(in_tree) < len(indices) and edges:` loop of `_cluster_mst`:
pop the cheapest edge, skip it if its target is already in the tree, otherwise
add the target, record the edge with its similarity weight, and push edges
from the new vertex to every member still outside the tree. -/
def primLoop (X : List (List ℚ)) (idxs : List ℕ) (s : PrimState) : PrimState :=
  if hlt : s.tree.card < idxs.length then
    match hh : s.heap with
    | [] => s
    | e :: rest =>
      if hmem : e.2.2.1 ∈ s.tree then
        primLoop X idxs ⟨s.tree, rest, s.mst⟩
      else
        let tree' := insert e.2.2.1 s.tree
        primLoop X idxs
          ⟨tree', pushEdges X e.2.2.1 (idxs.filter (fun w => decide (w ∉ tree'))) rest,
            s.mst ++ [(e.2.1, e.2.2.1, e.2.2.2)]⟩
  else s
termination_by (idxs.length - s.tree.card, s.heap.length)
decreasing_by
  · simp only [hh]
    exact Prod.Lex.right _ (by simp [List.length_cons])
  · exact Prod.Lex.left _ _ (by
      have : (insert e.2.2.1 s.tree).card = s.tree.card + 1 :=
        Finset.card_insert_of_not_mem hmem
      omega)

/-- `_cluster_mst(indices)`: empty for clusters of size ≤ 1, otherwise Prim's
growth seeded from `indices[0]` with edges to `indices[1:]`. -/
def clusterMst (X : List (List ℚ)) (idxs : List ℕ) : List (ℕ × ℕ × ℚ) :=
  if idxs.length ≤ 1 then []
  else
    match idxs with
    | [] => []
    | r :: rest => (primLoop X idxs ⟨{r}, pushEdges X r rest [], []⟩).mst

/-- Proof-support: the tree-growth structure of Prim's loop — starting from
the set `{r}`, each recorded edge joins a vertex already in the tree to a
fresh member of the cluster. -/
inductive Grown (idxs : List ℕ) (r : ℕ) : Finset ℕ → List (ℕ × ℕ × ℚ) → Prop
  | init : r ∈ idxs → Grown idxs r {r} []
  | step {t : Finset ℕ} {es : List (ℕ × ℕ × ℚ)} {u v : ℕ} {s : ℚ} :
      Grown idxs r t es → u ∈ t → v ∉ t → v ∈ idxs →
      Grown idxs r (insert v t) (es ++ [(u, v, s)])

/-- Proof-support: the subgraph induced on the cluster's members by an edge
list — the object the claim's "connected and acyclic" is about. -/
def mstGraph (es : List (ℕ × ℕ × ℚ)) (idxs : List ℕ) : SimpleGraph {x : ℕ // x ∈ idxs} where
  Adj a b := a.val ≠ b.val ∧ ∃ w, (a.val, b.val, w) ∈ es ∨ (b.val, a.val, w) ∈ es
  symm := by
    rintro a b ⟨hne, w, h⟩
    exact ⟨fun hc => hne hc.symm, w, h.symm⟩
  loopless := by
    rintro a ⟨hne, _⟩
    exact hne rfl

/-- Proof-support: the loop invariant of `primLoop`: every heap entry points
from a tree vertex to a cluster member and carries `(1 - sim, u, v, sim)` with
the true similarity; every cluster member outside the tree is targeted by some
heap entry; the recorded edges grew as a tree and carry true similarities. -/
def PrimInv (X : List (List ℚ)) (idxs : List ℕ) (r : ℕ) (s : PrimState) : Prop :=
  (∀ e ∈ s.heap, e.2.1 ∈ s.tree ∧ e.2.2.1 ∈ idxs ∧
    e.2.2.2 = dotl (X.getD e.2.1 []) (X.getD e.2.2.1 []) ∧
    e.1 = 1 - dotl (X.getD e.2.1 []) (X.getD e.2.2.1 [])) ∧
  (∀ w ∈ idxs, w ∉ s.tree → ∃ e ∈ s.heap, e.2.2.1 = w) ∧
  Grown idxs r s.tree s.mst ∧
  (∀ e ∈ s.mst, e.2.2 = dotl (X.getD e.1 []) (X.getD e.2.1 []))

/-! ## SpatialDeclutterer (`_spread`, lines 318–347) -/

/-- Grid cell of a point (`int(np.floor(x / cell))`, `cell = r_min`). -/
def cellOf (cell : ℚ) (p : ℚ × ℚ) : ℤ × ℤ := (⌊p.1 / cell⌋, ⌊p.2 / cell⌋)

/-- `buckets.setdefault((gx, gy), []).append(i)` on an insertion-ordered map. -/
def addToBucket : List ((ℤ × ℤ) × List ℕ) → (ℤ × ℤ) → ℕ → List ((ℤ × ℤ) × List ℕ)
  | [], k, i => [(k, [i])]
  | (k', l) :: bs, k, i =>
    if k' = k then (k', l ++ [i]) :: bs else (k', l) :: addToBucket bs k i

/-- The spatial hash built once per pass from the positions at pass start. -/
def buildBuckets (cell : ℚ) (P : List (ℚ × ℚ)) : List ((ℤ × ℤ) × List ℕ) :=
  (List.range P.length).foldl
    (fun bs i => addToBucket bs (cellOf cell (P.getD i (0, 0))) i) []

/-- `buckets.get(k, ())`. -/
def lookupBucket (bs : List ((ℤ × ℤ) × List ℕ)) (k : ℤ × ℤ) : List ℕ :=
  ((bs.find? (fun b => decide (b.1 = k))).map Prod.snd).getD []

/-- Indices in the 3×3 block of cells around `(gx, gy)`; the Python `set` has
no specified iteration order, modelled as first-seen order of the key sweep. -/
def hotOf (bs : List ((ℤ × ℤ) × List ℕ)) (gx gy : ℤ) : List ℕ :=
  (([(-1 : ℤ), 0, 1].flatMap (fun dx => [(-1 : ℤ), 0, 1].map (fun dy => (gx + dx, gy + dy)))).flatMap
    (lookupBucket bs)).foldl (fun acc i => if i ∈ acc then acc else acc ++ [i]) []

/-- One `jj` interaction inside the `ii` loop.  `snap` is the snapshot
`xi, yi = P[ii]` taken at `ii`-loop entry — the code never re-reads it, so
pushes to `P[ii]` within the loop do not update `xi, yi` — while `P[jj]` and
the written cells are current.  `sq` is the square-root oracle for `np.sqrt`. -/
def pairPush (sq : ℚ → ℚ) (rmin : ℚ) (ii : ℕ) (snap : ℚ × ℚ) (P : List (ℚ × ℚ)) (jj : ℕ) :
    List (ℚ × ℚ) :=
  if jj ≤ ii then P
  else
    let pj := P.getD jj (0, 0)
    let dx := snap.1 - pj.1
    let dy := snap.2 - pj.2
    let d2 := dx * dx + dy * dy
    if d2 < rmin * rmin ∧ (1 : ℚ) / 1000000000000 < d2 then
      let d := sq d2
      let push := (1 / 2) * (rmin - d) / d
      let pi := P.getD ii (0, 0)
      (P.set ii (pi.1 + dx * push, pi.2 + dy * push)).set jj
        (pj.1 - dx * push, pj.2 - dy * push)
    else P

/-- The loop body for one `ii` of a bucket. -/
def iiStep (sq : ℚ → ℚ) (rmin : ℚ) (hot : List ℕ) (P : List (ℚ × ℚ)) (ii : ℕ) :
    List (ℚ × ℚ) :=
  hot.foldl (pairPush sq rmin ii (P.getD ii (0, 0))) P

/-- Process one bucket: compute its hot set once, then run the `ii` loop. -/
def bucketStep (sq : ℚ → ℚ) (rmin : ℚ) (bs : List ((ℤ × ℤ) × List ℕ))
    (P : List (ℚ × ℚ)) (b : (ℤ × ℤ) × List ℕ) : List (ℚ × ℚ) :=
  b.2.foldl (iiStep sq rmin (hotOf bs b.1.1 b.1.2)) P

/-- One relaxation pass: rebuild the grid, then sweep all buckets. -/
def spreadPass (sq : ℚ → ℚ) (rmin : ℚ) (P : List (ℚ × ℚ)) : List (ℚ × ℚ) :=
  let bs := buildBuckets rmin P
  bs.foldl (bucketStep sq rmin bs) P

/-- `_spread(points, r_min, iters)`. -/
def spread (sq : ℚ → ℚ) (P : List (ℚ × ℚ)) (rmin : ℚ) : ℕ → List (ℚ × ℚ)
  | 0 => P
  | n + 1 => spread sq (spreadPass sq rmin P) rmin n

/-- Squared euclidean distance between two points. -/
def dist2 (p q : ℚ × ℚ) : ℚ := (p.1 - q.1) * (p.1 - q.1) + (p.2 - q.2) * (p.2 - q.2)

/-- Proof-support: the value of one symmetric push applied to a lone pair. -/
def pushedPair (sq : ℚ → ℚ) (rmin : ℚ) (p q : ℚ × ℚ) : List (ℚ × ℚ) :=
  let dx := p.1 - q.1
  let dy := p.2 - q.2
  let d := sq (dx * dx + dy * dy)
  let push := (1 / 2) * (rmin - d) / d
  [(p.1 + dx * push, p.2 + dy * push), (q.1 - dx * push, q.2 - dy * push)]

/-! ## LayoutEngine dispatch and GraphAssembler (`export_json_graph`)

The display-only string fields copied verbatim onto nodes (title, authors,
published, domain, link, summary) are elided; nodes keep the row index, the
external id and the cluster id, which is what the claims inspect.  The
database loading is outside the core: the item list stands for the rows the
query returns, in row order. -/

/-- The requested `coords_method` (after `.lower()`). -/
inductive Method
  | fa2
  | fr
  | umap
  | pca
  | nocoords
  deriving DecidableEq

/-- The external layout back-ends, as oracles.  `none` models the call raising
an exception.  The call sites pass a seed to the spring layout (`seed=fr_seed`),
to umap (`random_state=umap_random_state`) and to PCA
(`random_state=pca_random_state`), so those oracles are functions of the seed
they receive; the `fa2.forceatlas2_networkx_layout(G, pos=None, ...)` call
passes no seed, so its oracle instead receives the ambient randomness
`entropy` of the invocation.  Dependence of a result on the graph, the matrix
and the remaining fixed parameters is folded into the choice of the structure
instance, which theorems quantify over. -/
structure Backends where
  networkxAvailable : Bool
  fa2Layout : ℕ → Option (List (ℚ × ℚ))
  frLayout : ℤ → Option (List (ℚ × ℚ))
  umapLayout : ℤ → Option (List (ℚ × ℚ))
  pcaLayout : ℤ → Option (List (ℚ × ℚ))

/-- The configuration surface of `export_json_graph` used by the core. -/
structure Config where
  topK : ℕ
  minSim : ℚ
  includeCoords : Bool
  coordsMethod : Method
  frSeed : ℤ
  umapRandomState : ℤ
  pcaRandomState : ℤ
  canvasW : ℤ
  canvasH : ℤ
  canvasPad : ℤ
  addClusterMst : Bool

/-- One item handed to the core: external id, cluster id, optional embedding. -/
structure Item where
  aid : String
  cid : ℤ
  emb : Option (List ℚ)
  deriving DecidableEq

/-- `astype(np.int32)` then `int(...)`: C truncation toward zero (canvas
values stay far below the int32 range for the canvases modelled). -/
def truncQ (q : ℚ) : ℤ := q.num.tdiv q.den

/-- `v /= (np.linalg.norm(v) + 1e-12)` with the norm through the sqrt oracle. -/
def normEmb (sq : ℚ → ℚ) (v : List ℚ) : List ℚ :=
  let n := sq (dotl v v)
  v.map (fun x => x / (n + 1 / 1000000000000))

/-- First-seen-order deduplication (Python `dict` keys are insertion-ordered). -/
def firstDedup (l : List ℤ) : List ℤ :=
  l.foldl (fun acc c => if c ∈ acc then acc else acc ++ [c]) []

/-- `by_cluster`: for each cluster id in first-appearance order, its member row
indices ascending; then `_cluster_mst` per cluster. -/
def mstAll (X : List (List ℚ)) (cids : List ℤ) : List (ℕ × ℕ × ℚ) :=
  (firstDedup cids).flatMap (fun c =>
    clusterMst X ((List.range cids.length).filter (fun i => decide (cids.getD i 0 = c))))

/-- `canvas_pad + norm * (canvas_w - 2 * canvas_pad)` per axis, truncated. -/
def canvasMap (cfg : Config) (P : List (ℚ × ℚ)) : List (ℤ × ℤ) :=
  P.map (fun p =>
    (truncQ ((cfg.canvasPad : ℚ) + p.1 * ((cfg.canvasW : ℚ) - 2 * cfg.canvasPad)),
     truncQ ((cfg.canvasPad : ℚ) + p.2 * ((cfg.canvasH : ℚ) - 2 * cfg.canvasPad))))

/-- Normalise the raw layout, declutter only the force-family results
(`if method_used in ("fa2", "fr")`, with `r_min=0.01, iters=1`), then map to
the canvas. -/
def finishCoords (sq : ℚ → ℚ) (cfg : Config) (forceFamily : Bool) (arr : List (ℚ × ℚ)) :
    List (ℤ × ℤ) :=
  let norm := normalizeCoords arr
  canvasMap cfg (if forceFamily then spread sq norm (1 / 100) 1 else norm)

/-- The layout stage (step 8): returns the canvas coordinates (if any) and the
`meta.coords.method` string recorded.  `Except.error` models an exception
escaping `export_json_graph`: the explicit `RuntimeError` when networkx is
missing for `fa2`/`fr`, and the unguarded `nx.spring_layout` / sklearn `PCA`
calls raising (the `fa2` and `umap` calls sit in `try`/`except` blocks that
fall through instead). -/
def runLayout (sq : ℚ → ℚ) (cfg : Config) (B : Backends) (entropy : ℕ) (N : ℕ) :
    Except String (Option (List (ℤ × ℤ)) × String) :=
  if cfg.includeCoords ∧ 2 ≤ N ∧ cfg.coordsMethod ≠ Method.nocoords then
    match cfg.coordsMethod with
    | .fa2 =>
      if B.networkxAvailable then
        match B.fa2Layout entropy with
        | some arr => .ok (some (finishCoords sq cfg true arr), "fa2")
        | none =>
          match B.frLayout cfg.frSeed with
          | some arr => .ok (some (finishCoords sq cfg true arr), "fr")
          | none => .error "spring_layout failed"
      else .error "coords_method requires networkx"
    | .fr =>
      if B.networkxAvailable then
        match B.frLayout cfg.frSeed with
        | some arr => .ok (some (finishCoords sq cfg true arr), "fr")
        | none => .error "spring_layout failed"
      else .error "coords_method requires networkx"
    | .umap =>
      match B.umapLayout cfg.umapRandomState with
      | some arr => .ok (some (finishCoords sq cfg false arr), "umap")
      | none =>
        match B.pcaLayout cfg.pcaRandomState with
        | some arr => .ok (some (finishCoords sq cfg false arr), "pca")
        | none => .error "PCA failed"
    | .pca =>
      match B.pcaLayout cfg.pcaRandomState with
      | some arr => .ok (some (finishCoords sq cfg false arr), "pca")
      | none => .error "PCA failed"
    | .nocoords => .ok (none, "none")
  else .ok (none, "none")

/-- A compact output node (`{id, aid, cid, [x, y]}`; display strings elided). -/
structure NodeOut where
  id : ℕ
  aid : String
  cid : ℤ
  xy : Option (ℤ × ℤ)
  deriving DecidableEq

/-- A compact output link `{s, t, w}` with the weight rounded to 6 decimals. -/
structure LinkOut where
  s : ℕ
  t : ℕ
  w : ℚ
  deriving DecidableEq

/-- The `meta` block fields the claims inspect (`generated_at` is the
timestamp explicitly excluded from the reproducibility claims). -/
structure MetaOut where
  topK : ℕ
  minSim : ℚ
  coordsIncluded : Bool
  coordsMethod : String
  deriving DecidableEq

/-- The assembled payload. -/
structure Payload where
  meta : MetaOut
  clusters : List (ℤ × ℕ)
  nodes : List NodeOut
  links : List LinkOut
  deriving DecidableEq

/-- `round(w, 6)` (ties rounded half-up rather than numpy's half-even; no
claim exercises a tie). -/
def round6 (q : ℚ) : ℚ := (round (q * 1000000) : ℤ) / 1000000

/-- `sorted(set(cluster_ids))` with sizes. -/
def clustersLegend (cids : List ℤ) : List (ℤ × ℕ) :=
  (List.insertionSort (· ≤ ·) (firstDedup cids)).map (fun c => (c, cids.count c))

/-- Fallback item for index lookups that are always in range. -/
def defaultItem : Item := ⟨"", 0, none⟩

/-- The embedding vectors of the items, `none` when any item lacks one (the
code collects `vec_by_id` and raises if the `missing` list is nonempty). -/
def embsOf : List Item → Option (List (List ℚ))
  | [] => some []
  | it :: l =>
    match it.emb, embsOf l with
    | some v, some vs => some (v :: vs)
    | _, _ => none

/-- `export_json_graph`, from the loaded rows to the payload.  `Except.error`
models a raised exception: the run aborts with no payload (the output file is
opened only after the payload is fully assembled, so an error means nothing is
written). -/
def exportGraph (sq : ℚ → ℚ) (items : List Item) (cfg : Config) (B : Backends)
    (entropy : ℕ) : Except String Payload :=
  if items.isEmpty then .error "No kept/clustered papers. Run filter and cluster first."
  else
    match embsOf items with
    | none => .error "papers missing embeddings; run embed/cluster."
    | some vecs =>
      let X := vecs.map (normEmb sq)
      let N := X.length
      let cids := items.map Item.cid
      let neighFlat := (neighPairs X cfg.topK cfg.minSim).enum.flatMap
        (fun il => il.2.map (fun js => (il.1, js.1, js.2)))
      let mstE := if cfg.addClusterMst then mstAll X cids else []
      let edges := dedupEdges neighFlat mstE cfg.minSim
      match runLayout sq cfg B entropy N with
      | .error e => .error e
      | .ok (xys, methodUsed) =>
        .ok
          { meta := ⟨cfg.topK, cfg.minSim, xys.isSome, methodUsed⟩
            clusters := clustersLegend cids
            nodes := (List.range N).map (fun i =>
              ⟨i, (items.getD i defaultItem).aid, (items.getD i defaultItem).cid,
                xys.map (fun l => l.getD i (0, 0))⟩)
            links := edges.map (fun e => ⟨e.1, e.2.1, round6 e.2.2⟩) }

/-! ## Theorems: EdgeDeduplicator (claim C5) -/

theorem canonPair_fst_le (u v : ℕ) : (canonPair u v).1 ≤ (canonPair u v).2 := by
  unfold canonPair; split <;> omega

theorem canonPair_of_canonical {k : ℕ × ℕ} (h : k.1 ≤ k.2) : canonPair k.1 k.2 = k := by
  obtain ⟨a, b⟩ := k
  unfold canonPair
  simp only at h ⊢
  split
  · rfl
  · have : a = b := by omega
    subst this; rfl

theorem firstWeight_append_of_some {pre l' : List (ℕ × ℕ × ℚ)} {k : ℕ × ℕ} {w : ℚ}
    (h : firstWeight pre k = some w) : firstWeight (pre ++ l') k = some w := by
  unfold firstWeight at h ⊢
  rw [List.find?_append]
  rcases hf : pre.find? (fun e => decide (canonPair e.1 e.2.1 = k)) with _ | x
  · rw [hf] at h; simp at h
  · rw [hf] at h
    rw [hf, Option.or_some]
    exact h

theorem emitInv_step (pre : List (ℕ × ℕ × ℚ)) (st : EmitState) (a : ℕ × ℕ × ℚ)
    (h : EmitInv pre st) : EmitInv (pre ++ [a]) (emitEdge st a) := by
  obtain ⟨hcanon, hnodup, hseen, hfirst, hlen, hpre⟩ := h
  unfold emitEdge
  by_cases hk : canonPair a.1 a.2.1 ∈ st.seen
  · simp only [hk, if_pos]
    refine ⟨hcanon, hnodup, hseen, ?_, by simpa using Nat.le_succ_of_le hlen, ?_⟩
    · intro e he
      exact firstWeight_append_of_some (hfirst e he)
    · intro x hx
      rcases List.mem_append.mp hx with hx | hx
      · exact hpre x hx
      · simp only [List.mem_singleton] at hx; subst hx; exact hk
  · simp only [hk, if_neg, not_false_iff]
    have hknot : canonPair a.1 a.2.1 ∉ st.edges.map (fun e => (e.1, e.2.1)) := by
      rw [hseen] at hk; simpa [List.mem_toFinset] using hk
    have hfindpre :
        pre.find? (fun x => decide (canonPair x.1 x.2.1 = canonPair a.1 a.2.1)) = none := by
      rw [List.find?_eq_none]
      intro x hx
      simp only [decide_eq_true_eq]
      intro hcontra
      exact hk (hcontra ▸ hpre x hx)
    refine ⟨?_, ?_, ?_, ?_, ?_, ?_⟩
    · intro e he
      rcases List.mem_append.mp he with he | he
      · exact hcanon e he
      · simp only [List.mem_singleton] at he; subst he
        exact canonPair_fst_le a.1 a.2.1
    · rw [List.map_append, List.nodup_append]
      refine ⟨hnodup, List.nodup_singleton _, ?_⟩
      intro x hx
      simp only [List.map_cons, List.map_nil, List.mem_singleton]
      intro hx1
      subst hx1
      exact hknot hx
    · rw [List.map_append]
      simp [hseen, List.toFinset_append, Finset.union_comm, Finset.insert_eq]
    · intro e he
      rcases List.mem_append.mp he with he | he
      · exact firstWeight_append_of_some (hfirst e he)
      · simp only [List.mem_singleton] at he; subst he
        unfold firstWeight
        rw [List.find?_append]
        have h1 : canonPair (canonPair a.1 a.2.1).1 (canonPair a.1 a.2.1).2 =
            canonPair a.1 a.2.1 := canonPair_of_canonical (canonPair_fst_le _ _)
        rw [hfindpre]
        simp [h1]
    · simpa using Nat.succ_le_succ hlen
    · intro x hx
      rcases List.mem_append.mp hx with hx | hx
      · exact Finset.mem_insert_of_mem (hpre x hx)
      · simp only [List.mem_singleton] at hx; subst hx
        exact Finset.mem_insert_self _ _

theorem emitInv_foldl (l : List (ℕ × ℕ × ℚ)) :
    ∀ (pre : List (ℕ × ℕ × ℚ)) (st : EmitState),
      EmitInv pre st → EmitInv (pre ++ l) (l.foldl emitEdge st) := by
  induction l with
  | nil => intro pre st h; simpa using h
  | cons a l ih =>
    intro pre st h
    have h1 := emitInv_step pre st a h
    have h2 := ih (pre ++ [a]) (emitEdge st a) h1
    simpa [List.append_assoc] using h2

/-- C5 (confirmed).  For any neighbour-graph edge list and spanning-tree edge
list: the merged list has no two entries with the same unordered pair, every
entry is canonical (smaller index first), every entry's weight is the one of
the first input edge proposing its pair — neighbour edges merged first, and a
spanning-tree edge participating only if its similarity is at least half of
`min_sim` — and the output size is at most the sum of the input sizes. -/
theorem c5_dedup_merge (neigh mstE : List (ℕ × ℕ × ℚ)) (τ : ℚ) :
    ((dedupEdges neigh mstE τ).map (fun e => canonPair e.1 e.2.1)).Nodup ∧
    (∀ e ∈ dedupEdges neigh mstE τ, e.1 ≤ e.2.1) ∧
    (∀ e ∈ dedupEdges neigh mstE τ,
      firstWeight (neigh ++ mstE.filter (fun e => τ * (1 / 2) ≤ e.2.2))
        (canonPair e.1 e.2.1) = some e.2.2) ∧
    (dedupEdges neigh mstE τ).length ≤ neigh.length + mstE.length := by
  have hbase : EmitInv [] ⟨∅, []⟩ := by
    refine ⟨by simp, by simp, by simp, by simp, by simp, by simp⟩
  have hinv := emitInv_foldl (neigh ++ mstE.filter (fun e => τ * (1 / 2) ≤ e.2.2)) [] _ hbase
  rw [List.foldl_append] at hinv
  simp only [List.nil_append] at hinv
  have hout : dedupEdges neigh mstE τ =
      ((mstE.filter (fun e => τ * (1 / 2) ≤ e.2.2)).foldl emitEdge
        (neigh.foldl emitEdge ⟨∅, []⟩)).edges := rfl
  obtain ⟨hcanon, hnodup, _, hfirst, hlen, _⟩ := hinv
  rw [← hout] at hcanon hnodup hfirst hlen
  refine ⟨?_, hcanon, ?_, ?_⟩
  · have : (dedupEdges neigh mstE τ).map (fun e => canonPair e.1 e.2.1) =
        (dedupEdges neigh mstE τ).map (fun e => (e.1, e.2.1)) := by
      apply List.map_congr_left
      intro e he
      exact canonPair_of_canonical (k := (e.1, e.2.1)) (hcanon e he)
    rw [this]; exact hnodup
  · intro e he
    have h1 := hfirst e he
    rwa [canonPair_of_canonical (k := (e.1, e.2.1)) (hcanon e he)]
  · calc (dedupEdges neigh mstE τ).length
        ≤ (neigh ++ mstE.filter (fun e => τ * (1 / 2) ≤ e.2.2)).length := hlen
      _ ≤ neigh.length + mstE.length := by
          simp only [List.length_append]
          exact Nat.add_le_add_left (List.length_filter_le _ _) _

/-! ## Theorems: coordinate normalisation (claim C6) -/

theorem foldl_min_le_init (l : List ℚ) : ∀ a : ℚ, l.foldl min a ≤ a := by
  induction l with
  | nil => intro a; simp
  | cons b l ih =>
    intro a
    calc (b :: l).foldl min a = l.foldl min (min a b) := rfl
      _ ≤ min a b := ih _
      _ ≤ a := min_le_left _ _

theorem foldl_min_le_mem (l : List ℚ) : ∀ (a : ℚ) (x : ℚ), x ∈ l → l.foldl min a ≤ x := by
  induction l with
  | nil => intro a x hx; simp at hx
  | cons b l ih =>
    intro a x hx
    rcases List.mem_cons.mp hx with hx | hx
    · subst hx
      calc (x :: l).foldl min a = l.foldl min (min a x) := rfl
        _ ≤ min a x := foldl_min_le_init _ _
        _ ≤ x := min_le_right _ _
    · exact ih _ x hx

theorem foldl_min_mem (l : List ℚ) : ∀ a : ℚ, l.foldl min a = a ∨ l.foldl min a ∈ l := by
  induction l with
  | nil => intro a; left; rfl
  | cons b l ih =>
    intro a
    rcases ih (min a b) with h | h
    · rcases min_cases a b with ⟨he, _⟩ | ⟨he, _⟩
      · left; rw [show (b :: l).foldl min a = l.foldl min (min a b) from rfl, h, he]
      · right
        rw [show (b :: l).foldl min a = l.foldl min (min a b) from rfl, h, he]
        exact List.mem_cons_self _ _
    · right
      exact List.mem_cons_of_mem _ h

theorem foldl_max_init_le (l : List ℚ) : ∀ a : ℚ, a ≤ l.foldl max a := by
  induction l with
  | nil => intro a; simp
  | cons b l ih =>
    intro a
    calc a ≤ max a b := le_max_left _ _
      _ ≤ l.foldl max (max a b) := ih _
      _ = (b :: l).foldl max a := rfl

theorem foldl_max_mem_le (l : List ℚ) : ∀ (a : ℚ) (x : ℚ), x ∈ l → x ≤ l.foldl max a := by
  induction l with
  | nil => intro a x hx; simp at hx
  | cons b l ih =>
    intro a x hx
    rcases List.mem_cons.mp hx with hx | hx
    · subst hx
      calc x ≤ max a x := le_max_right _ _
        _ ≤ l.foldl max (max a x) := foldl_max_init_le _ _
        _ = (x :: l).foldl max a := rfl
    · exact ih _ x hx

theorem foldl_max_mem (l : List ℚ) : ∀ a : ℚ, l.foldl max a = a ∨ l.foldl max a ∈ l := by
  induction l with
  | nil => intro a; left; rfl
  | cons b l ih =>
    intro a
    rcases ih (max a b) with h | h
    · rcases max_cases a b with ⟨he, _⟩ | ⟨he, _⟩
      · left; rw [show (b :: l).foldl max a = l.foldl max (max a b) from rfl, h, he]
      · right
        rw [show (b :: l).foldl max a = l.foldl max (max a b) from rfl, h, he]
        exact List.mem_cons_self _ _
    · right
      exact List.mem_cons_of_mem _ h

theorem listMin_le {l : List ℚ} {x : ℚ} (hx : x ∈ l) : listMin l ≤ x := by
  cases l with
  | nil => simp at hx
  | cons b l =>
    rcases List.mem_cons.mp hx with hx | hx
    · subst hx; exact foldl_min_le_init _ _
    · exact foldl_min_le_mem _ _ _ hx

theorem listMin_mem {l : List ℚ} (h : l ≠ []) : listMin l ∈ l := by
  cases l with
  | nil => exact absurd rfl h
  | cons b l =>
    rcases foldl_min_mem l b with he | he
    · rw [listMin, he]; exact List.mem_cons_self _ _
    · rw [listMin]; exact List.mem_cons_of_mem _ he

theorem le_listMax {l : List ℚ} {x : ℚ} (hx : x ∈ l) : x ≤ listMax l := by
  cases l with
  | nil => simp at hx
  | cons b l =>
    rcases List.mem_cons.mp hx with hx | hx
    · subst hx; exact foldl_max_init_le _ _
    · exact foldl_max_mem_le _ _ _ hx

theorem listMax_mem {l : List ℚ} (h : l ≠ []) : listMax l ∈ l := by
  cases l with
  | nil => exact absurd rfl h
  | cons b l =>
    rcases foldl_max_mem l b with he | he
    · rw [listMax, he]; exact List.mem_cons_self _ _
    · rw [listMax]; exact List.mem_cons_of_mem _ he

/-- C6 (confirmed, reading the invariant as a property of the normalisation
output).  For every nonempty raw coordinate list: every normalised value lies
in `[0,1] × [0,1]`; each axis attains `0` (the per-axis minimum is `0`); and
whenever the axis range is at least the `1e-9` epsilon floor — the floor that
replaces raising on a collapsed range — the axis also attains `1` (the
per-axis maximum is `1`). -/
theorem c6_normalize_bounds (P : List (ℚ × ℚ)) (hne : P ≠ []) :
    (∀ q ∈ normalizeCoords P, 0 ≤ q.1 ∧ q.1 ≤ 1 ∧ 0 ≤ q.2 ∧ q.2 ≤ 1) ∧
    (∃ q ∈ normalizeCoords P, q.1 = 0) ∧ (∃ q ∈ normalizeCoords P, q.2 = 0) ∧
    (eps9 ≤ listMax (P.map Prod.fst) - listMin (P.map Prod.fst) →
      ∃ q ∈ normalizeCoords P, q.1 = 1) ∧
    (eps9 ≤ listMax (P.map Prod.snd) - listMin (P.map Prod.snd) →
      ∃ q ∈ normalizeCoords P, q.2 = 1) := by
  have hmape : ∀ f : ℚ × ℚ → ℚ, P.map f ≠ [] := by
    intro f h
    exact hne (List.map_eq_nil_iff.mp h)
  have heps : (0 : ℚ) < eps9 := by norm_num [eps9]
  have hrx : (0 : ℚ) < max (listMax (P.map Prod.fst) - listMin (P.map Prod.fst)) eps9 :=
    lt_of_lt_of_le heps (le_max_right _ _)
  have hry : (0 : ℚ) < max (listMax (P.map Prod.snd) - listMin (P.map Prod.snd)) eps9 :=
    lt_of_lt_of_le heps (le_max_right _ _)
  refine ⟨?_, ?_, ?_, ?_, ?_⟩
  · intro q hq
    rw [normalizeCoords, List.mem_map] at hq
    obtain ⟨p, hp, rfl⟩ := hq
    have h1 : listMin (P.map Prod.fst) ≤ p.1 := listMin_le (List.mem_map_of_mem _ hp)
    have h2 : p.1 ≤ listMax (P.map Prod.fst) := le_listMax (List.mem_map_of_mem _ hp)
    have h3 : listMin (P.map Prod.snd) ≤ p.2 := listMin_le (List.mem_map_of_mem _ hp)
    have h4 : p.2 ≤ listMax (P.map Prod.snd) := le_listMax (List.mem_map_of_mem _ hp)
    refine ⟨div_nonneg (by linarith) hrx.le, ?_, div_nonneg (by linarith) hry.le, ?_⟩
    · rw [div_le_one hrx]
      calc p.1 - listMin (P.map Prod.fst)
          ≤ listMax (P.map Prod.fst) - listMin (P.map Prod.fst) := by linarith
        _ ≤ max (listMax (P.map Prod.fst) - listMin (P.map Prod.fst)) eps9 := le_max_left _ _
    · rw [div_le_one hry]
      calc p.2 - listMin (P.map Prod.snd)
          ≤ listMax (P.map Prod.snd) - listMin (P.map Prod.snd) := by linarith
        _ ≤ max (listMax (P.map Prod.snd) - listMin (P.map Prod.snd)) eps9 := le_max_left _ _
  · obtain ⟨p, hp, hpx⟩ := List.mem_map.mp (listMin_mem (hmape Prod.fst))
    refine ⟨_, List.mem_map_of_mem _ hp, ?_⟩
    simp only [hpx, sub_self, zero_div]
  · obtain ⟨p, hp, hpy⟩ := List.mem_map.mp (listMin_mem (hmape Prod.snd))
    refine ⟨_, List.mem_map_of_mem _ hp, ?_⟩
    simp only [hpy, sub_self, zero_div]
  · intro hra
    obtain ⟨p, hp, hpx⟩ := List.mem_map.mp (listMax_mem (hmape Prod.fst))
    refine ⟨_, List.mem_map_of_mem _ hp, ?_⟩
    simp only [hpx]
    rw [max_eq_left hra, div_self (by linarith)]
  · intro hra
    obtain ⟨p, hp, hpy⟩ := List.mem_map.mp (listMax_mem (hmape Prod.snd))
    refine ⟨_, List.mem_map_of_mem _ hp, ?_⟩
    simp only [hpy]
    rw [max_eq_left hra, div_self (by linarith)]

/-- Witness for C6 at the concrete raw layout `[(0,0), (1,2)]`. -/
theorem c6_normalize_bounds_witness :
    ([((0 : ℚ), (0 : ℚ)), (1, 2)] ≠ []) ∧
    ((∀ q ∈ normalizeCoords [((0 : ℚ), (0 : ℚ)), (1, 2)],
        0 ≤ q.1 ∧ q.1 ≤ 1 ∧ 0 ≤ q.2 ∧ q.2 ≤ 1) ∧
      (∃ q ∈ normalizeCoords [((0 : ℚ), (0 : ℚ)), (1, 2)], q.1 = 0) ∧
      (∃ q ∈ normalizeCoords [((0 : ℚ), (0 : ℚ)), (1, 2)], q.2 = 0) ∧
      (eps9 ≤ listMax ([((0 : ℚ), (0 : ℚ)), (1, 2)].map Prod.fst) -
          listMin ([((0 : ℚ), (0 : ℚ)), (1, 2)].map Prod.fst) →
        ∃ q ∈ normalizeCoords [((0 : ℚ), (0 : ℚ)), (1, 2)], q.1 = 1) ∧
      (eps9 ≤ listMax ([((0 : ℚ), (0 : ℚ)), (1, 2)].map Prod.snd) -
          listMin ([((0 : ℚ), (0 : ℚ)), (1, 2)].map Prod.snd) →
        ∃ q ∈ normalizeCoords [((0 : ℚ), (0 : ℚ)), (1, 2)], q.2 = 1)) :=
  ⟨by simp, c6_normalize_bounds _ (by simp)⟩

/-! ## Theorems: NeighborGraphBuilder (claim C3) -/

instance simDescTotal (X : List (List ℚ)) (i : ℕ) : IsTotal ℕ (simDesc X i) :=
  ⟨fun a b => le_total (maskedSim X i b) (maskedSim X i a)⟩

instance simDescTrans (X : List (List ℚ)) (i : ℕ) : IsTrans ℕ (simDesc X i) :=
  ⟨fun _ _ _ hab hbc => le_trans hbc hab⟩

theorem pairwise_orderedInsert_of (r : ℕ → ℕ → Prop) [DecidableRel r]
    (Q : ℕ → ℕ → Prop) (c : ℕ) :
    ∀ S : List ℕ, S.Pairwise Q → (∀ y ∈ S, Q c y) → (∀ y ∈ S, ¬r c y → Q y c) →
      (S.orderedInsert r c).Pairwise Q := by
  intro S
  induction S with
  | nil => intro _ _ _; simp
  | cons y S ih =>
    intro hS h1 h2
    rw [List.orderedInsert]
    by_cases hr : r c y
    · rw [if_pos hr]
      exact List.Pairwise.cons (fun z hz => h1 z hz) hS
    · rw [if_neg hr]
      rcases List.pairwise_cons.mp hS with ⟨hy, hS'⟩
      refine List.Pairwise.cons ?_ (ih hS' (fun z hz => h1 z (List.mem_cons_of_mem _ hz))
        (fun z hz hrz => h2 z (List.mem_cons_of_mem _ hz) hrz))
      intro z hz
      rcases (List.mem_orderedInsert r).mp hz with hz | hz
      · subst hz; exact h2 y (List.mem_cons_self _ _) hr
      · exact hy z hz

theorem insertionSort_pairwise_stable {α : Type} [LinearOrder α] (key : ℕ → α) :
    ∀ l : List ℕ, l.Pairwise (· < ·) →
      (List.insertionSort (fun a b => key b ≤ key a) l).Pairwise
        (fun a b => key a ≤ key b → a < b) := by
  intro l
  induction l with
  | nil => intro _; simp [List.insertionSort]
  | cons c t ih =>
    intro hl
    rcases List.pairwise_cons.mp hl with ⟨hc, ht⟩
    rw [List.insertionSort]
    refine pairwise_orderedInsert_of _ _ c _ (ih ht) ?_ ?_
    · intro y hy _
      exact hc y ((List.perm_insertionSort _ t).mem_iff.mp hy)
    · intro y hy hr
      intro hyc
      exact absurd hyc hr

theorem neighRow_take_pairwise (X : List (List ℚ)) (i : ℕ) :
    (List.insertionSort (simDesc X i) (List.range X.length)).Pairwise
      (fun a b => simDesc X i a b ∧ (maskedSim X i a ≤ maskedSim X i b → a < b)) := by
  have h1 : (List.insertionSort (simDesc X i) (List.range X.length)).Pairwise (simDesc X i) :=
    List.sorted_insertionSort (simDesc X i) (List.range X.length)
  have h2 := insertionSort_pairwise_stable (maskedSim X i) (List.range X.length)
    (by simpa using List.pairwise_lt_range X.length)
  exact h1.and h2

theorem simDescTB_total (tb : ℕ → ℕ → Bool)
    (htot : ∀ a b, tb a b = true ∨ tb b a = true) (X : List (List ℚ)) (i : ℕ) :
    ∀ a b, simDescTB tb X i a b ∨ simDescTB tb X i b a := by
  intro a b
  rcases lt_trichotomy (maskedSim X i a) (maskedSim X i b) with h | h | h
  · exact Or.inr (Or.inl h)
  · rcases htot a b with ht | ht
    · exact Or.inl (Or.inr ⟨h, ht⟩)
    · exact Or.inr (Or.inr ⟨h.symm, ht⟩)
  · exact Or.inl (Or.inl h)

theorem simDescTB_trans (tb : ℕ → ℕ → Bool)
    (htrans : ∀ a b c, tb a b = true → tb b c = true → tb a c = true)
    (X : List (List ℚ)) (i : ℕ) :
    ∀ a b c, simDescTB tb X i a b → simDescTB tb X i b c → simDescTB tb X i a c := by
  intro a b c hab hbc
  rcases hab with h1 | ⟨e1, t1⟩
  · rcases hbc with h2 | ⟨e2, _⟩
    · exact Or.inl (h2.trans h1)
    · exact Or.inl (by rw [← e2]; exact h1)
  · rcases hbc with h2 | ⟨e2, t2⟩
    · exact Or.inl (by rw [e1]; exact h2)
    · exact Or.inr ⟨e1.trans e2, htrans a b c t1 t2⟩

theorem tbIdxAsc_total : ∀ a b, tbIdxAsc a b = true ∨ tbIdxAsc b a = true := by
  intro a b
  rcases Nat.le_total a b with h | h
  · exact Or.inl (by simp [tbIdxAsc, h])
  · exact Or.inr (by simp [tbIdxAsc, h])

theorem tbIdxAsc_trans :
    ∀ a b c, tbIdxAsc a b = true → tbIdxAsc b c = true → tbIdxAsc a c = true := by
  intro a b c h1 h2
  simp only [tbIdxAsc, decide_eq_true_eq] at h1 h2 ⊢
  omega

theorem tbIdxDesc_total : ∀ a b, tbIdxDesc a b = true ∨ tbIdxDesc b a = true := by
  intro a b
  rcases Nat.le_total b a with h | h
  · exact Or.inl (by simp [tbIdxDesc, h])
  · exact Or.inr (by simp [tbIdxDesc, h])

theorem tbIdxDesc_trans :
    ∀ a b c, tbIdxDesc a b = true → tbIdxDesc b c = true → tbIdxDesc a c = true := by
  intro a b c h1 h2
  simp only [tbIdxDesc, decide_eq_true_eq] at h1 h2 ⊢
  omega

/-- The executable builder `exportGraph` runs is the member of the faithful
family at the index-ascending completion: the stable sort under `simDesc` and
the sort under the completed total order `simDescTB tbIdxAsc` agree. -/
theorem neighRow_eq_tb (X : List (List ℚ)) (K : ℕ) (τ : ℚ) (i : ℕ) :
    neighRow X K τ i = neighRowTB tbIdxAsc X K τ i := by
  haveI : IsTotal ℕ (simDescTB tbIdxAsc X i) := ⟨simDescTB_total _ tbIdxAsc_total X i⟩
  haveI : IsTrans ℕ (simDescTB tbIdxAsc X i) := ⟨simDescTB_trans _ tbIdxAsc_trans X i⟩
  haveI : IsAntisymm ℕ (simDescTB tbIdxAsc X i) := ⟨by
    intro a b hab hba
    rcases hab with h1 | ⟨e1, t1⟩
    · rcases hba with h2 | ⟨e2, _⟩
      · exact absurd h1 (not_lt.mpr h2.le)
      · exact absurd h1 (by rw [e2]; exact lt_irrefl _)
    · rcases hba with h2 | ⟨e2, t2⟩
      · exact absurd h2 (by rw [e1]; exact lt_irrefl _)
      · simp only [tbIdxAsc, decide_eq_true_eq] at t1 t2
        omega⟩
  have hs1 : (List.insertionSort (simDesc X i) (List.range X.length)).Sorted
      (simDescTB tbIdxAsc X i) := by
    refine (neighRow_take_pairwise X i).imp ?_
    intro a b hab
    obtain ⟨hd, hs⟩ := hab
    rcases lt_or_eq_of_le hd with h | h
    · exact Or.inl h
    · refine Or.inr ⟨h.symm, ?_⟩
      simp only [tbIdxAsc, decide_eq_true_eq]
      exact (hs h.symm.le).le
  have hs2 : (List.insertionSort (simDescTB tbIdxAsc X i) (List.range X.length)).Sorted
      (simDescTB tbIdxAsc X i) := List.sorted_insertionSort _ _
  have hsort : List.insertionSort (simDesc X i) (List.range X.length)
      = List.insertionSort (simDescTB tbIdxAsc X i) (List.range X.length) :=
    List.eq_of_perm_of_sorted ((List.perm_insertionSort _ _).trans
      (List.perm_insertionSort _ _).symm) hs1 hs2
  simp only [neighRow, neighRowTB, hsort]

/-- C3 (amended).  For every admissible tie-order completion `tb` (a total,
transitive order on row indices; numpy's implementation-defined arrangement of
equal similarities in any single run is some such completion) and every row
`i < N` of the unit-norm matrix: at most `K` pairs; no self-pair; every pair's
index is a valid row and its similarity is the dot product with that row and
at least the floor `min_sim` (rows with fewer qualifying candidates return
fewer pairs, never padded); pairs are sorted descending by similarity; and
when `N ≤ 1` every row stays empty.  The index-ascending tie-break the claim
asserts holds for the completion `tbIdxAsc` but fails for the equally
admissible `tbIdxDesc` (`c3_neighbor_builder_counterexample`), so it is not a
guarantee of the program and is dropped here. -/
theorem c3_neighbor_builder_amended (tb : ℕ → ℕ → Bool) (X : List (List ℚ))
    (K : ℕ) (τ : ℚ)
    (htot : ∀ a b, tb a b = true ∨ tb b a = true)
    (htrans : ∀ a b c, tb a b = true → tb b c = true → tb a c = true)
    (hunit : ∀ v ∈ X, dotl v v = 1) :
    (∀ i < X.length,
      (neighRowTB tb X K τ i).length ≤ K ∧
      (∀ p ∈ neighRowTB tb X K τ i, p.1 ≠ i ∧ p.1 < X.length ∧ τ ≤ p.2 ∧
        p.2 = dotl (X.getD i []) (X.getD p.1 [])) ∧
      (neighRowTB tb X K τ i).Pairwise (fun p q => q.2 ≤ p.2)) ∧
    (X.length ≤ 1 → neighPairsTB tb X K τ = List.replicate X.length []) := by
  constructor
  · intro i _
    haveI : IsTotal ℕ (simDescTB tb X i) := ⟨simDescTB_total tb htot X i⟩
    haveI : IsTrans ℕ (simDescTB tb X i) := ⟨simDescTB_trans tb htrans X i⟩
    have hmem : ∀ j, j ∈ (List.insertionSort (simDescTB tb X i)
          (List.range X.length)).take (min K (X.length - 1)) → j < X.length := by
      intro j hj
      have := (List.perm_insertionSort (simDescTB tb X i) (List.range X.length)).mem_iff.mp
        (List.mem_of_mem_take hj)
      simpa using this
    have hkey : ∀ j, j ≠ i →
        maskedSim X i j = ((dotl (X.getD i []) (X.getD j []) : ℚ) : WithBot ℚ) := by
      intro j hj; simp [maskedSim, hj]
    refine ⟨?_, ?_, ?_⟩
    · have h1 : (neighRowTB tb X K τ i).length ≤
          ((List.insertionSort (simDescTB tb X i) (List.range X.length)).take
            (min K (X.length - 1))).length := by
        unfold neighRowTB
        rw [List.length_map]
        exact List.length_filter_le _ _
      have h2 : ((List.insertionSort (simDescTB tb X i) (List.range X.length)).take
          (min K (X.length - 1))).length ≤ min K (X.length - 1) := by
        rw [List.length_take]
        exact min_le_left _ _
      exact le_trans (le_trans h1 h2) (min_le_left _ _)
    · intro p hp
      unfold neighRowTB at hp
      rw [List.mem_map] at hp
      obtain ⟨j, hj, rfl⟩ := hp
      rw [List.mem_filter] at hj
      obtain ⟨hjt, hjp⟩ := hj
      have hle : (τ : WithBot ℚ) ≤ maskedSim X i j := of_decide_eq_true hjp
      have hji : j ≠ i := by
        intro h
        rw [h] at hle
        simp [maskedSim] at hle
      rw [hkey j hji] at hle ⊢
      refine ⟨hji, hmem j hjt, ?_, ?_⟩
      · simpa [WithBot.coe_le_coe] using hle
      · simp
    · unfold neighRowTB
      rw [List.pairwise_map]
      have hsorted : (List.insertionSort (simDescTB tb X i)
            (List.range X.length)).Pairwise (simDescTB tb X i) :=
        List.sorted_insertionSort (simDescTB tb X i) (List.range X.length)
      have hbase : (((List.insertionSort (simDescTB tb X i) (List.range X.length)).take
            (min K (X.length - 1))).filter
            (fun j => decide ((τ : WithBot ℚ) ≤ maskedSim X i j))).Pairwise
          (simDescTB tb X i) :=
        hsorted.sublist ((List.filter_sublist _).trans (List.take_sublist _ _))
      refine hbase.imp_of_mem ?_
      intro a b ha hb hR
      have hga : (τ : WithBot ℚ) ≤ maskedSim X i a := of_decide_eq_true (List.mem_filter.mp ha).2
      have hgb : (τ : WithBot ℚ) ≤ maskedSim X i b := of_decide_eq_true (List.mem_filter.mp hb).2
      have hia : a ≠ i := by intro h; rw [h] at hga; simp [maskedSim] at hga
      have hib : b ≠ i := by intro h; rw [h] at hgb; simp [maskedSim] at hgb
      have hd : maskedSim X i b ≤ maskedSim X i a := by
        rcases hR with h | ⟨e, _⟩
        · exact h.le
        · exact e.ge
      rw [hkey a hia, hkey b hib] at hd ⊢
      simp only [WithBot.unbot'_coe]
      exact WithBot.coe_le_coe.mp hd
  · intro hN
    simp [neighPairsTB, hN]

/-- C3 counterexample to the claimed index-ascending tie-break.  On the
unit-norm matrix `[[1,0],[0,1],[0,-1]]` row `0` sees candidates `1` and `2`
with equal similarity `0`; under the admissible index-descending completion
(total and transitive, hence a possible outcome of numpy's unstable
`argpartition`/`argsort`) the builder returns `[(2,0),(1,0)]`, whose tied
pair is in index-descending order, violating the claimed tie-break. -/
theorem c3_neighbor_builder_counterexample :
    (∀ a b, tbIdxDesc a b = true ∨ tbIdxDesc b a = true) ∧
    (∀ a b c, tbIdxDesc a b = true → tbIdxDesc b c = true → tbIdxDesc a c = true) ∧
    (∀ v ∈ [[(1 : ℚ), 0], [0, 1], [0, -1]], dotl v v = 1) ∧
    neighRowTB tbIdxDesc [[(1 : ℚ), 0], [0, 1], [0, -1]] 2 0 0 = [(2, 0), (1, 0)] ∧
    ¬ (neighRowTB tbIdxDesc [[(1 : ℚ), 0], [0, 1], [0, -1]] 2 0 0).Pairwise
        (fun p q => q.2 < p.2 ∨ (p.2 = q.2 ∧ p.1 < q.1)) := by
  have hev : neighRowTB tbIdxDesc [[(1 : ℚ), 0], [0, 1], [0, -1]] 2 0 0 =
      [(2, 0), (1, 0)] := by
    norm_num [neighRowTB, simDescTB, maskedSim, dotl, tbIdxDesc,
      List.insertionSort, List.orderedInsert, List.range_succ]
  refine ⟨tbIdxDesc_total, tbIdxDesc_trans, by norm_num [dotl], hev, ?_⟩
  rw [hev]
  intro hpw
  rcases List.pairwise_cons.mp hpw with ⟨h1, _⟩
  have := h1 (1, 0) (List.mem_singleton.mpr rfl)
  norm_num at this

/-- Witness for the amended C3 at the index-ascending completion and a
concrete 3-row unit-norm matrix. -/
theorem c3_neighbor_builder_amended_witness :
    ((∀ a b, tbIdxAsc a b = true ∨ tbIdxAsc b a = true) ∧
     (∀ a b c, tbIdxAsc a b = true → tbIdxAsc b c = true → tbIdxAsc a c = true) ∧
     (∀ v ∈ [[(1 : ℚ), 0], [0, 1], [3 / 5, 4 / 5]], dotl v v = 1)) ∧
    ((∀ i < ([[(1 : ℚ), 0], [0, 1], [3 / 5, 4 / 5]] : List (List ℚ)).length,
      (neighRowTB tbIdxAsc [[(1 : ℚ), 0], [0, 1], [3 / 5, 4 / 5]] 2 (1 / 2) i).length ≤ 2 ∧
      (∀ p ∈ neighRowTB tbIdxAsc [[(1 : ℚ), 0], [0, 1], [3 / 5, 4 / 5]] 2 (1 / 2) i,
        p.1 ≠ i ∧ p.1 < ([[(1 : ℚ), 0], [0, 1], [3 / 5, 4 / 5]] : List (List ℚ)).length ∧
        (1 : ℚ) / 2 ≤ p.2 ∧
        p.2 = dotl ([[(1 : ℚ), 0], [0, 1], [3 / 5, 4 / 5]].getD i [])
          ([[(1 : ℚ), 0], [0, 1], [3 / 5, 4 / 5]].getD p.1 [])) ∧
      (neighRowTB tbIdxAsc [[(1 : ℚ), 0], [0, 1], [3 / 5, 4 / 5]] 2 (1 / 2) i).Pairwise
        (fun p q => q.2 ≤ p.2)) ∧
    (([[(1 : ℚ), 0], [0, 1], [3 / 5, 4 / 5]] : List (List ℚ)).length ≤ 1 →
      neighPairsTB tbIdxAsc [[(1 : ℚ), 0], [0, 1], [3 / 5, 4 / 5]] 2 (1 / 2) =
        List.replicate ([[(1 : ℚ), 0], [0, 1], [3 / 5, 4 / 5]] : List (List ℚ)).length [])) :=
  ⟨⟨tbIdxAsc_total, tbIdxAsc_trans, by norm_num [dotl]⟩,
   c3_neighbor_builder_amended tbIdxAsc _ 2 (1 / 2) tbIdxAsc_total tbIdxAsc_trans
     (by norm_num [dotl])⟩

/-! ## Theorems: SpatialDeclutterer infrastructure (claims C7, C10) -/

theorem foldl_id {α β : Type} (f : α → β → α) (l : List β)
    (h : ∀ acc, ∀ a ∈ l, f acc a = acc) : ∀ acc, l.foldl f acc = acc := by
  induction l with
  | nil => intro acc; rfl
  | cons b l ih =>
    intro acc
    rw [List.foldl_cons, h acc b (List.mem_cons_self _ _)]
    exact ih (fun acc a ha => h acc a (List.mem_cons_of_mem _ ha)) acc

theorem dedupFold_mem (l : List ℕ) :
    ∀ (acc : List ℕ) (x : ℕ),
      x ∈ l.foldl (fun acc i => if i ∈ acc then acc else acc ++ [i]) acc ↔ x ∈ acc ∨ x ∈ l := by
  induction l with
  | nil => intro acc x; simp
  | cons b l ih =>
    intro acc x
    rw [List.foldl_cons]
    by_cases hb : b ∈ acc
    · rw [if_pos hb, ih]
      constructor
      · rintro (h | h)
        · exact Or.inl h
        · exact Or.inr (List.mem_cons_of_mem _ h)
      · rintro (h | h)
        · exact Or.inl h
        · rcases List.mem_cons.mp h with rfl | h
          · exact Or.inl hb
          · exact Or.inr h
    · rw [if_neg hb, ih]
      constructor
      · rintro (h | h)
        · rcases List.mem_append.mp h with h | h
          · exact Or.inl h
          · simp only [List.mem_singleton] at h
            exact Or.inr (h ▸ List.mem_cons_self _ _)
        · exact Or.inr (List.mem_cons_of_mem _ h)
      · rintro (h | h)
        · exact Or.inl (List.mem_append_left _ h)
        · rcases List.mem_cons.mp h with rfl | h
          · exact Or.inl (List.mem_append_right _ (List.mem_singleton_self _))
          · exact Or.inr h

theorem dedupFold_nodup (l : List ℕ) :
    ∀ acc : List ℕ, acc.Nodup →
      (l.foldl (fun acc i => if i ∈ acc then acc else acc ++ [i]) acc).Nodup := by
  induction l with
  | nil => intro acc h; exact h
  | cons b l ih =>
    intro acc h
    rw [List.foldl_cons]
    by_cases hb : b ∈ acc
    · rw [if_pos hb]; exact ih acc h
    · rw [if_neg hb]
      refine ih _ ?_
      rw [List.nodup_append]
      exact ⟨h, List.nodup_singleton _, fun x hx hxb => hb ((List.mem_singleton.mp hxb) ▸ hx)⟩

theorem mem_hotOf {bs : List ((ℤ × ℤ) × List ℕ)} {gx gy : ℤ} {j : ℕ} :
    j ∈ hotOf bs gx gy ↔
      ∃ dx ∈ ([-1, 0, 1] : List ℤ), ∃ dy ∈ ([-1, 0, 1] : List ℤ),
        j ∈ lookupBucket bs (gx + dx, gy + dy) := by
  unfold hotOf
  rw [dedupFold_mem]
  simp only [List.not_mem_nil, false_or]
  rw [List.mem_flatMap]
  constructor
  · rintro ⟨k, hk, hj⟩
    rw [List.mem_flatMap] at hk
    obtain ⟨dx, hdx, hk⟩ := hk
    rw [List.mem_map] at hk
    obtain ⟨dy, hdy, rfl⟩ := hk
    exact ⟨dx, hdx, dy, hdy, hj⟩
  · rintro ⟨dx, hdx, dy, hdy, hj⟩
    refine ⟨(gx + dx, gy + dy), ?_, hj⟩
    rw [List.mem_flatMap]
    exact ⟨dx, hdx, List.mem_map_of_mem _ hdy⟩

theorem hotOf_nodup (bs : List ((ℤ × ℤ) × List ℕ)) (gx gy : ℤ) : (hotOf bs gx gy).Nodup :=
  dedupFold_nodup _ _ List.nodup_nil

theorem lookupBucket_subset {bs : List ((ℤ × ℤ) × List ℕ)} {k : ℤ × ℤ} {j : ℕ}
    (h : j ∈ lookupBucket bs k) : ∃ b ∈ bs, j ∈ b.2 := by
  unfold lookupBucket at h
  rcases hf : bs.find? (fun b => decide (b.1 = k)) with _ | b
  · rw [hf] at h; simp at h
  · rw [hf] at h
    simp only [Option.map_some', Option.getD_some] at h
    exact ⟨b, List.mem_of_find?_eq_some hf, h⟩

theorem pairPush_skip (sq : ℚ → ℚ) (rmin : ℚ) (ii : ℕ) (snap : ℚ × ℚ)
    (P : List (ℚ × ℚ)) (jj : ℕ) (h : jj ≤ ii) :
    pairPush sq rmin ii snap P jj = P := by
  unfold pairPush
  rw [if_pos h]

theorem foldl_pairPush_ge (sq : ℚ → ℚ) (rmin : ℚ) (ii : ℕ) (snap : ℚ × ℚ)
    (hot : List ℕ) (hsub : ∀ j ∈ hot, j ≤ ii) :
    ∀ P, hot.foldl (pairPush sq rmin ii snap) P = P :=
  foldl_id _ _ (fun P j hj => pairPush_skip sq rmin ii snap P j (hsub j hj))

theorem foldl_pairPush_zero (sq : ℚ → ℚ) (rmin : ℚ) (snap : ℚ × ℚ)
    (hot : List ℕ) (hsub : ∀ j ∈ hot, j < 2) (hone : (1 : ℕ) ∈ hot) (hnd : hot.Nodup) :
    ∀ P, hot.foldl (pairPush sq rmin 0 snap) P = pairPush sq rmin 0 snap P 1 := by
  obtain ⟨l1, l2, rfl⟩ := List.append_of_mem hone
  rw [List.nodup_append] at hnd
  obtain ⟨hnd1, hnd2, hdisj⟩ := hnd
  have h1r : (1 : ℕ) ∉ l2 := (List.nodup_cons.mp hnd2).1
  have hskip1 : ∀ j ∈ l1, j = 0 := by
    intro j hj
    have hlt : j < 2 := hsub j (List.mem_append_left _ hj)
    have hne : j ≠ 1 := by
      intro h
      exact (hdisj (h ▸ hj)) (List.mem_cons_self _ _)
    omega
  have hskip2 : ∀ j ∈ l2, j = 0 := by
    intro j hj
    have hlt : j < 2 := hsub j (List.mem_append_right _ (List.mem_cons_of_mem _ hj))
    have hne : j ≠ 1 := fun h => h1r (h ▸ hj)
    omega
  intro P
  rw [List.foldl_append]
  rw [foldl_id (pairPush sq rmin 0 snap) l1 (fun acc a ha => by
    rw [hskip1 a ha]; exact pairPush_skip sq rmin 0 snap acc 0 (le_refl 0)) P]
  rw [List.foldl_cons]
  exact foldl_id (pairPush sq rmin 0 snap) l2 (fun acc a ha => by
    rw [hskip2 a ha]; exact pairPush_skip sq rmin 0 snap acc 0 (le_refl 0)) _

theorem range_two : List.range 2 = [0, 1] := by
  rfl

theorem buildBuckets_pair (cell : ℚ) (p q : ℚ × ℚ) :
    buildBuckets cell [p, q] =
      if cellOf cell p = cellOf cell q
      then [(cellOf cell p, [0, 1])]
      else [(cellOf cell p, [0]), (cellOf cell q, [1])] := by
  unfold buildBuckets
  rw [show ([p, q] : List (ℚ × ℚ)).length = 2 from rfl, range_two]
  rw [List.foldl_cons, List.foldl_cons, List.foldl_nil]
  show addToBucket (addToBucket [] (cellOf cell p) 0) (cellOf cell q) 1 = _
  rw [show addToBucket [] (cellOf cell p) 0 = [(cellOf cell p, [0])] from rfl]
  unfold addToBucket
  by_cases h : cellOf cell p = cellOf cell q
  · rw [if_pos h, if_pos h]
    rfl
  · rw [if_neg h, if_neg h]
    rfl

theorem foldl_fix {α β : Type} (f : α → β → α) (l : List β) (x : α)
    (h : ∀ a ∈ l, f x a = x) : l.foldl f x = x := by
  induction l with
  | nil => rfl
  | cons b l ih =>
    rw [List.foldl_cons, h b (List.mem_cons_self _ _)]
    exact ih (fun a ha => h a (List.mem_cons_of_mem _ ha))

theorem spreadPass_pair_noact (sq : ℚ → ℚ) (rmin : ℚ) (p q : ℚ × ℚ)
    (h : ¬(dist2 p q < rmin * rmin ∧ (1 : ℚ) / 1000000000000 < dist2 p q)) :
    spreadPass sq rmin [p, q] = [p, q] := by
  unfold spreadPass
  have hmem2 : ∀ b ∈ buildBuckets rmin [p, q], ∀ j ∈ b.2, j < 2 := by
    rw [buildBuckets_pair]
    split
    · intro b hb j hj
      simp only [List.mem_singleton] at hb
      subst hb
      simp only [List.mem_cons, List.mem_singleton, List.not_mem_nil, or_false] at hj
      omega
    · intro b hb j hj
      rcases List.mem_cons.mp hb with rfl | hb
      · simp only [List.mem_singleton] at hj; omega
      · simp only [List.mem_singleton] at hb
        subst hb
        simp only [List.mem_singleton] at hj
        omega
  apply foldl_fix
  intro b hb
  unfold bucketStep
  apply foldl_fix
  intro ii hii
  unfold iiStep
  apply foldl_fix
  intro jj hjj
  have hjlt : jj < 2 := by
    rcases mem_hotOf.mp hjj with ⟨dx, _, dy, _, hjl⟩
    obtain ⟨b', hb', hjb⟩ := lookupBucket_subset hjl
    exact hmem2 b' hb' jj hjb
  have hilt : ii < 2 := hmem2 b hb ii hii
  unfold pairPush
  by_cases hle : jj ≤ ii
  · rw [if_pos hle]
  · rw [if_neg hle]
    have : ii = 0 ∧ jj = 1 := by omega
    obtain ⟨rfl, rfl⟩ := this
    simp only [List.getD_cons_succ, List.getD_cons_zero]
    rw [if_neg (by exact h)]

theorem hotOf_bound {bs : List ((ℤ × ℤ) × List ℕ)} (hb : ∀ b ∈ bs, ∀ j ∈ b.2, j < 2) :
    ∀ (gx gy : ℤ) (j : ℕ), j ∈ hotOf bs gx gy → j < 2 := by
  intro gx gy j hj
  rcases mem_hotOf.mp hj with ⟨dx, _, dy, _, hjl⟩
  obtain ⟨b', hb', hjb⟩ := lookupBucket_subset hjl
  exact hb b' hb' j hjb

theorem iiStep_one_fix (sq : ℚ → ℚ) (rmin : ℚ) (hot : List ℕ)
    (hsub : ∀ j ∈ hot, j < 2) (P : List (ℚ × ℚ)) : iiStep sq rmin hot P 1 = P := by
  unfold iiStep
  exact foldl_pairPush_ge sq rmin 1 _ hot (fun j hj => by have := hsub j hj; omega) P

theorem pairPush_zero_one_act (sq : ℚ → ℚ) (rmin : ℚ) (p q : ℚ × ℚ)
    (h2 : dist2 p q < rmin * rmin) (h1 : (1 : ℚ) / 1000000000000 < dist2 p q) :
    pairPush sq rmin 0 p [p, q] 1 = pushedPair sq rmin p q := by
  unfold pairPush pushedPair
  rw [if_neg (by omega)]
  simp only [List.getD_cons_succ, List.getD_cons_zero]
  rw [if_pos (by
    constructor
    · simpa [dist2] using h2
    · simpa [dist2] using h1)]
  rfl

theorem floor_pair_adj {a b c : ℚ} (hc : 0 < c) (h : (a - b) * (a - b) < c * c) :
    ⌊b / c⌋ - 1 ≤ ⌊a / c⌋ ∧ ⌊a / c⌋ ≤ ⌊b / c⌋ + 1 := by
  have hlt : a - b < c := by nlinarith
  have hgt : -c < a - b := by nlinarith
  have h1 : a / c ≤ b / c + 1 := by
    have hd : (a - b) / c < 1 := (div_lt_one hc).mpr hlt
    have hsub : a / c - b / c = (a - b) / c := (sub_div a b c).symm
    linarith
  have h2 : b / c - 1 ≤ a / c := by
    have hd : (b - a) / c < 1 := (div_lt_one hc).mpr (by linarith)
    have hsub : b / c - a / c = (b - a) / c := (sub_div b a c).symm
    linarith
  constructor
  · have e2 : b / c + ((-1 : ℤ) : ℚ) = b / c - 1 := by push_cast; ring
    have hle : ⌊b / c + ((-1 : ℤ) : ℚ)⌋ ≤ ⌊a / c⌋ := Int.floor_le_floor (by rw [e2]; exact h2)
    rw [Int.floor_add_int] at hle
    omega
  · have e2 : b / c + ((1 : ℤ) : ℚ) = b / c + 1 := by push_cast; ring
    have hle : ⌊a / c⌋ ≤ ⌊b / c + ((1 : ℤ) : ℚ)⌋ := Int.floor_le_floor (by rw [e2]; exact h1)
    rw [Int.floor_add_int] at hle
    omega

theorem iiStep_zero_act (sq : ℚ → ℚ) (rmin : ℚ) (p q : ℚ × ℚ)
    (h2 : dist2 p q < rmin * rmin) (h1 : (1 : ℚ) / 1000000000000 < dist2 p q)
    (hot : List ℕ) (hs : ∀ j ∈ hot, j < 2) (h1m : (1 : ℕ) ∈ hot) (hnd : hot.Nodup) :
    iiStep sq rmin hot [p, q] 0 = pushedPair sq rmin p q := by
  unfold iiStep
  rw [foldl_pairPush_zero sq rmin _ hot hs h1m hnd]
  simp only [List.getD_cons_zero]
  exact pairPush_zero_one_act sq rmin p q h2 h1

theorem spreadPass_pair_act (sq : ℚ → ℚ) (rmin : ℚ) (p q : ℚ × ℚ) (hrpos : 0 < rmin)
    (h2 : dist2 p q < rmin * rmin) (h1 : (1 : ℚ) / 1000000000000 < dist2 p q) :
    spreadPass sq rmin [p, q] = pushedPair sq rmin p q := by
  have hx2 : (p.1 - q.1) * (p.1 - q.1) < rmin * rmin := by
    have hnn : 0 ≤ (p.2 - q.2) * (p.2 - q.2) := mul_self_nonneg _
    unfold dist2 at h2
    nlinarith
  have hy2 : (p.2 - q.2) * (p.2 - q.2) < rmin * rmin := by
    have hnn : 0 ≤ (p.1 - q.1) * (p.1 - q.1) := mul_self_nonneg _
    unfold dist2 at h2
    nlinarith
  have hadjx := floor_pair_adj hrpos hx2
  have hadjy := floor_pair_adj hrpos hy2
  unfold spreadPass
  by_cases hcell : cellOf rmin p = cellOf rmin q
  · rw [buildBuckets_pair, if_pos hcell]
    have hbnd : ∀ b ∈ [(cellOf rmin p, [0, 1])], ∀ j ∈ b.2, j < 2 := by
      intro b hb j hj
      simp only [List.mem_singleton] at hb
      subst hb
      simp only [List.mem_cons, List.mem_singleton, List.not_mem_nil, or_false] at hj
      omega
    have hone : (1 : ℕ) ∈ hotOf [(cellOf rmin p, [0, 1])] (cellOf rmin p).1 (cellOf rmin p).2 := by
      rw [mem_hotOf]
      refine ⟨0, by simp, 0, by simp, ?_⟩
      unfold lookupBucket
      rw [List.find?_cons_of_pos _ (by simp)]
      simp
    simp only [List.foldl_cons, List.foldl_nil]
    unfold bucketStep
    simp only [List.foldl_cons, List.foldl_nil]
    rw [iiStep_zero_act sq rmin p q h2 h1 _ (hotOf_bound hbnd _ _) hone (hotOf_nodup _ _ _)]
    exact iiStep_one_fix sq rmin _ (hotOf_bound hbnd _ _) _
  · rw [buildBuckets_pair, if_neg hcell]
    have hbnd : ∀ b ∈ [(cellOf rmin p, [0]), (cellOf rmin q, [1])], ∀ j ∈ b.2, j < 2 := by
      intro b hb j hj
      rcases List.mem_cons.mp hb with rfl | hb
      · simp only [List.mem_singleton] at hj; omega
      · simp only [List.mem_singleton] at hb
        subst hb
        simp only [List.mem_singleton] at hj
        omega
    have hone : (1 : ℕ) ∈ hotOf [(cellOf rmin p, [0]), (cellOf rmin q, [1])]
        (cellOf rmin p).1 (cellOf rmin p).2 := by
      rw [mem_hotOf]
      refine ⟨(cellOf rmin q).1 - (cellOf rmin p).1, ?_, (cellOf rmin q).2 - (cellOf rmin p).2,
        ?_, ?_⟩
      · have h1b := hadjx.1
        have h2b := hadjx.2
        unfold cellOf at h1b h2b ⊢
        simp only at h1b h2b ⊢
        have hca : ⌊q.1 / rmin⌋ - ⌊p.1 / rmin⌋ = -1 ∨ ⌊q.1 / rmin⌋ - ⌊p.1 / rmin⌋ = 0 ∨
            ⌊q.1 / rmin⌋ - ⌊p.1 / rmin⌋ = 1 := by omega
        rcases hca with h | h | h <;> simp [h]
      · have h1b := hadjy.1
        have h2b := hadjy.2
        unfold cellOf at h1b h2b ⊢
        simp only at h1b h2b ⊢
        have hca : ⌊q.2 / rmin⌋ - ⌊p.2 / rmin⌋ = -1 ∨ ⌊q.2 / rmin⌋ - ⌊p.2 / rmin⌋ = 0 ∨
            ⌊q.2 / rmin⌋ - ⌊p.2 / rmin⌋ = 1 := by omega
        rcases hca with h | h | h <;> simp [h]
      · have hkey : ((cellOf rmin p).1 + ((cellOf rmin q).1 - (cellOf rmin p).1),
            (cellOf rmin p).2 + ((cellOf rmin q).2 - (cellOf rmin p).2)) = cellOf rmin q := by
          simp
        rw [hkey]
        unfold lookupBucket
        rw [List.find?_cons_of_neg _ (by simpa using fun h => hcell h)]
        rw [List.find?_cons_of_pos _ (by simp)]
        simp
    simp only [List.foldl_cons, List.foldl_nil]
    unfold bucketStep
    simp only [List.foldl_cons, List.foldl_nil]
    rw [iiStep_zero_act sq rmin p q h2 h1 _ (hotOf_bound hbnd _ _) hone (hotOf_nodup _ _ _)]
    exact iiStep_one_fix sq rmin _ (hotOf_bound hbnd _ _) _

theorem dist2_pushedPair (sq : ℚ → ℚ) (rmin : ℚ) (p q : ℚ × ℚ)
    (hsq : sq (dist2 p q) * sq (dist2 p q) = dist2 p q) (hpos : 0 < sq (dist2 p q)) :
    dist2 ((pushedPair sq rmin p q).getD 0 (0, 0)) ((pushedPair sq rmin p q).getD 1 (0, 0)) =
      rmin * rmin := by
  have hne : sq (dist2 p q) ≠ 0 := ne_of_gt hpos
  unfold dist2 at hsq hne ⊢
  unfold pushedPair
  simp only [List.getD_cons_zero, List.getD_cons_succ]
  field_simp
  nlinarith [hsq, sq_nonneg ((p.1 - q.1) * (p.1 - q.1) + (p.2 - q.2) * (p.2 - q.2))]

theorem spread_pair_fix (sq : ℚ → ℚ) (rmin : ℚ) (p q : ℚ × ℚ)
    (h : ¬(dist2 p q < rmin * rmin ∧ (1 : ℚ) / 1000000000000 < dist2 p q)) :
    ∀ n, spread sq [p, q] rmin n = [p, q] := by
  intro n
  induction n with
  | zero => rfl
  | succ n ih =>
    rw [spread, spreadPass_pair_noact sq rmin p q h]
    exact ih

theorem spread_pair_close (sq : ℚ → ℚ) (rmin : ℚ) (p q : ℚ × ℚ) (hrpos : 0 < rmin)
    (h2 : dist2 p q < rmin * rmin) (h1 : (1 : ℚ) / 1000000000000 < dist2 p q)
    (hsq : sq (dist2 p q) * sq (dist2 p q) = dist2 p q) (hpos : 0 < sq (dist2 p q)) :
    ∀ n, 1 ≤ n → spread sq [p, q] rmin n = pushedPair sq rmin p q := by
  intro n hn
  obtain ⟨m, rfl⟩ : ∃ m, n = m + 1 := ⟨n - 1, by omega⟩
  rw [spread, spreadPass_pair_act sq rmin p q hrpos h2 h1]
  obtain ⟨p', q', hpq⟩ : ∃ a b, pushedPair sq rmin p q = [a, b] := ⟨_, _, rfl⟩
  rw [hpq]
  have hd : dist2 p' q' = rmin * rmin := by
    have := dist2_pushedPair sq rmin p q hsq hpos
    rw [hpq] at this
    simpa using this
  apply spread_pair_fix
  rw [hd]
  rintro ⟨hlt, _⟩
  exact lt_irrefl _ hlt

/-- C7 (corrected).  The declutter guarantee as provable on the code: (i) for
a lone pair closer than `r_min` whose squared distance exceeds the `1e-12`
guard, after any positive number of passes the two points sit at squared
distance exactly `r_min²` (so distance `r_min ≥ r_min − ε`); (ii) a lone pair
already at least `r_min` apart is never moved at all; (iii) the declutter runs
only on force-family layouts — the `fa2` and `fr` dispatch paths apply
`_spread` to the normalised coordinates while the `umap` and `pca` paths map
them to the canvas unmodified. -/
theorem c7_declutter_amended (sq : ℚ → ℚ) (rmin : ℚ) (p q : ℚ × ℚ) (n : ℕ)
    (hrpos : 0 < rmin) (h1 : (1 : ℚ) / 1000000000000 < dist2 p q)
    (h2 : dist2 p q < rmin * rmin)
    (hsq : sq (dist2 p q) * sq (dist2 p q) = dist2 p q) (hpos : 0 < sq (dist2 p q))
    (hn : 1 ≤ n) :
    (dist2 ((spread sq [p, q] rmin n).getD 0 (0, 0))
        ((spread sq [p, q] rmin n).getD 1 (0, 0)) = rmin * rmin) ∧
    (∀ p' q' : ℚ × ℚ, rmin * rmin ≤ dist2 p' q' →
      ∀ m, spread sq [p', q'] rmin m = [p', q']) ∧
    (∀ (cfg : Config) (B : Backends) (ent N : ℕ) (arr : List (ℚ × ℚ)),
      cfg.includeCoords = true → 2 ≤ N →
      (cfg.coordsMethod = Method.fa2 → B.networkxAvailable = true →
        B.fa2Layout ent = some arr →
        runLayout sq cfg B ent N =
          .ok (some (canvasMap cfg (spread sq (normalizeCoords arr) (1 / 100) 1)), "fa2")) ∧
      (cfg.coordsMethod = Method.fr → B.networkxAvailable = true →
        B.frLayout cfg.frSeed = some arr →
        runLayout sq cfg B ent N =
          .ok (some (canvasMap cfg (spread sq (normalizeCoords arr) (1 / 100) 1)), "fr")) ∧
      (cfg.coordsMethod = Method.umap → B.umapLayout cfg.umapRandomState = some arr →
        runLayout sq cfg B ent N =
          .ok (some (canvasMap cfg (normalizeCoords arr)), "umap")) ∧
      (cfg.coordsMethod = Method.pca → B.pcaLayout cfg.pcaRandomState = some arr →
        runLayout sq cfg B ent N =
          .ok (some (canvasMap cfg (normalizeCoords arr)), "pca"))) := by
  refine ⟨?_, ?_, ?_⟩
  · rw [spread_pair_close sq rmin p q hrpos h2 h1 hsq hpos n hn]
    exact dist2_pushedPair sq rmin p q hsq hpos
  · intro p' q' hfar m
    apply spread_pair_fix
    rintro ⟨hlt, _⟩
    exact absurd hfar (not_le.mpr hlt)
  · intro cfg B ent N arr hic hN
    refine ⟨?_, ?_, ?_, ?_⟩
    · intro hm hnet harr
      unfold runLayout
      rw [if_pos ⟨by simp [hic], hN, by simp [hm]⟩, hm]
      simp only [hnet, if_true, harr]
      rfl
    · intro hm hnet harr
      unfold runLayout
      rw [if_pos ⟨by simp [hic], hN, by simp [hm]⟩, hm]
      simp only [hnet, if_true, harr]
      rfl
    · intro hm harr
      unfold runLayout
      rw [if_pos ⟨by simp [hic], hN, by simp [hm]⟩, hm]
      simp only [harr]
      rfl
    · intro hm harr
      unfold runLayout
      rw [if_pos ⟨by simp [hic], hN, by simp [hm]⟩, hm]
      simp only [harr]
      rfl

/-- Witness for C7 (amended) at `p = (0,0)`, `q = (1/200, 0)`, `r_min = 1/100`:
the oracle value `1/200` is the exact square root of the squared distance
`1/40000`. -/
theorem c7_declutter_amended_witness :
    ((1 : ℚ) / 1000000000000 < dist2 ((0 : ℚ), (0 : ℚ)) (1 / 200, 0) ∧
      dist2 ((0 : ℚ), (0 : ℚ)) (1 / 200, 0) < (1 / 100) * (1 / 100) ∧
      sqrtHints (dist2 ((0 : ℚ), (0 : ℚ)) (1 / 200, 0)) *
          sqrtHints (dist2 ((0 : ℚ), (0 : ℚ)) (1 / 200, 0)) =
        dist2 ((0 : ℚ), (0 : ℚ)) (1 / 200, 0) ∧
      0 < sqrtHints (dist2 ((0 : ℚ), (0 : ℚ)) (1 / 200, 0))) ∧
    dist2 ((spread sqrtHints [((0 : ℚ), (0 : ℚ)), (1 / 200, 0)] (1 / 100) 1).getD 0 (0, 0))
        ((spread sqrtHints [((0 : ℚ), (0 : ℚ)), (1 / 200, 0)] (1 / 100) 1).getD 1 (0, 0)) =
      (1 / 100) * (1 / 100) := by
  have hd : dist2 ((0 : ℚ), (0 : ℚ)) (1 / 200, 0) = 1 / 40000 := by norm_num [dist2]
  refine ⟨⟨by rw [hd]; norm_num, by rw [hd]; norm_num, by rw [hd]; norm_num [sqrtHints],
    by rw [hd]; norm_num [sqrtHints]⟩, ?_⟩
  exact (c7_declutter_amended sqrtHints (1 / 100) ((0 : ℚ), (0 : ℚ)) (1 / 200, 0) 1
    (by norm_num) (by rw [hd]; norm_num) (by rw [hd]; norm_num)
    (by rw [hd]; norm_num [sqrtHints]) (by rw [hd]; norm_num [sqrtHints]) (le_refl 1)).1

/-- Counterexample to C7 as stated: two coincident layout points are closer
than `r_min = 1/100` before the declutter, yet the declutter leaves them
coincident — their post-declutter distance is `0`, below `r_min − ε` even for
the generous `ε = r_min/2`. -/
theorem c7_declutter_counterexample :
    dist2 ((1 / 2 : ℚ), (1 / 2 : ℚ)) (1 / 2, 1 / 2) < (1 / 100) * (1 / 100) ∧
    spread sqrtHints [((1 / 2 : ℚ), (1 / 2 : ℚ)), (1 / 2, 1 / 2)] (1 / 100) 1 =
      [((1 / 2 : ℚ), (1 / 2 : ℚ)), (1 / 2, 1 / 2)] ∧
    dist2 ((spread sqrtHints [((1 / 2 : ℚ), (1 / 2 : ℚ)), (1 / 2, 1 / 2)] (1 / 100) 1).getD 0
        (0, 0))
      ((spread sqrtHints [((1 / 2 : ℚ), (1 / 2 : ℚ)), (1 / 2, 1 / 2)] (1 / 100) 1).getD 1
        (0, 0)) <
      ((1 / 100) - (1 / 200)) * ((1 / 100) - (1 / 200)) := by
  have hz : dist2 ((1 / 2 : ℚ), (1 / 2 : ℚ)) (1 / 2, 1 / 2) = 0 := by norm_num [dist2]
  have hfix : spread sqrtHints [((1 / 2 : ℚ), (1 / 2 : ℚ)), (1 / 2, 1 / 2)] (1 / 100) 1 =
      [((1 / 2 : ℚ), (1 / 2 : ℚ)), (1 / 2, 1 / 2)] := by
    apply spread_pair_fix
    rw [hz]
    rintro ⟨_, hgt⟩
    norm_num at hgt
  refine ⟨by rw [hz]; norm_num, hfix, ?_⟩
  rw [hfix]
  simp only [List.getD_cons_zero, List.getD_cons_succ]
  rw [hz]
  norm_num

/-- C10 (corrected).  The pair interaction skips pairs with squared distance
at most `1e-12`: in a layout consisting of the two points alone, identical (or
nearly identical) points are left exactly in place, for every `r_min` and
every number of relaxation passes. -/
theorem c10_coincident_amended (sq : ℚ → ℚ) (p q : ℚ × ℚ) (rmin : ℚ) (n : ℕ)
    (h : dist2 p q ≤ (1 : ℚ) / 1000000000000) :
    spread sq [p, q] rmin n = [p, q] := by
  apply spread_pair_fix
  rintro ⟨_, hgt⟩
  exact absurd h (not_le.mpr hgt)

/-- Witness for C10 (amended): two coincident points at `(1/2, 1/2)`. -/
theorem c10_coincident_amended_witness :
    dist2 ((1 / 2 : ℚ), (1 / 2 : ℚ)) (1 / 2, 1 / 2) ≤ (1 : ℚ) / 1000000000000 ∧
    spread sqrtHints [((1 / 2 : ℚ), (1 / 2 : ℚ)), (1 / 2, 1 / 2)] (1 / 100) 3 =
      [((1 / 2 : ℚ), (1 / 2 : ℚ)), (1 / 2, 1 / 2)] :=
  ⟨by norm_num [dist2],
    c10_coincident_amended sqrtHints _ _ (1 / 100) 3 (by norm_num [dist2])⟩

/-- Counterexample to C10 as stated: with a third point `(101/200, 1/2)` in
interaction range, one declutter pass separates the two points that started
coincident at `(1/2, 1/2)` — the first ends at `x = 199/400`, the second at
`x = 399/800`.  The two oracle values used are exact square roots of the two
squared distances encountered. -/
theorem c10_coincident_counterexample :
    dist2 ((1 / 2 : ℚ), (1 / 2 : ℚ)) (1 / 2, 1 / 2) = 0 ∧
    ((1 / 200 : ℚ) * (1 / 200) = 1 / 40000 ∧ (3 / 400 : ℚ) * (3 / 400) = 9 / 160000) ∧
    spread sqrtHints [((1 / 2 : ℚ), (1 / 2 : ℚ)), (1 / 2, 1 / 2), (101 / 200, 1 / 2)]
        (1 / 100) 1 =
      [((199 / 400 : ℚ), (1 / 2 : ℚ)), (399 / 800, 1 / 2), (407 / 800, 1 / 2)] ∧
    ((199 / 400 : ℚ), (1 / 2 : ℚ)) ≠ ((399 / 800 : ℚ), (1 / 2 : ℚ)) := by
  refine ⟨by norm_num [dist2], ⟨by norm_num, by norm_num⟩, ?_, by norm_num⟩
  norm_num [spread, spreadPass, buildBuckets, cellOf, addToBucket, hotOf, lookupBucket,
    bucketStep, iiStep, pairPush, sqrtHints, List.range_succ]

/-! ## Theorems: pipeline preconditions and layout dispatch (claims C9, C8, C1, C2) -/

theorem embsOf_none {l : List Item} (h : ∃ it ∈ l, it.emb = none) :
    embsOf l = none := by
  induction l with
  | nil => simp at h
  | cons a l ih =>
    obtain ⟨it, hit, hnone⟩ := h
    rcases List.mem_cons.mp hit with rfl | hit
    · rw [embsOf, hnone]
    · rw [embsOf, ih ⟨it, hit, hnone⟩]
      rcases a.emb with _ | v <;> rfl

theorem embsOf_length : ∀ {l : List Item} {vs : List (List ℚ)},
    embsOf l = some vs → vs.length = l.length := by
  intro l
  induction l with
  | nil =>
    intro vs h
    rw [embsOf] at h
    cases h
    rfl
  | cons a l ih =>
    intro vs h
    rw [embsOf] at h
    rcases ha : a.emb with _ | v <;> rw [ha] at h
    · exact absurd h (by simp)
    · rcases hm : embsOf l with _ | ws <;> rw [hm] at h
      · exact absurd h (by simp)
      · simp only [Option.some.injEq] at h
        subst h
        simp [ih hm]

/-- C9 (confirmed).  For every invocation whose item set is empty or in which
some item lacks an embedding vector, the export aborts with an error before
assembling any output: the result is `Except.error`, carrying no payload (the
code opens the output file only after the payload is complete, so nothing is
written). -/
theorem c9_preconditions (sq : ℚ → ℚ) (items : List Item) (cfg : Config) (B : Backends)
    (ent : ℕ) (h : items = [] ∨ ∃ it ∈ items, it.emb = none) :
    ∃ msg, exportGraph sq items cfg B ent = .error msg := by
  rcases h with rfl | h
  · exact ⟨_, rfl⟩
  · unfold exportGraph
    by_cases he : items.isEmpty
    · rw [if_pos he]
      exact ⟨_, rfl⟩
    · rw [if_neg he, embsOf_none h]
      exact ⟨_, rfl⟩

/-- Witness for C9: one item lacking an embedding. -/
theorem c9_preconditions_witness :
    (([⟨"a", 0, none⟩] : List Item) = [] ∨
      ∃ it ∈ ([⟨"a", 0, none⟩] : List Item), it.emb = none) ∧
    ∃ msg, exportGraph sqrtHints [⟨"a", 0, none⟩]
        ⟨8, 85 / 100, true, Method.fr, 42, 42, 42, 1000, 700, 24, true⟩
        ⟨true, fun _ => none, fun _ => none, fun _ => none, fun _ => none⟩ 0 = .error msg :=
  ⟨Or.inr ⟨⟨"a", 0, none⟩, List.mem_singleton_self _, rfl⟩,
    c9_preconditions sqrtHints _ _ _ 0
      (Or.inr ⟨⟨"a", 0, none⟩, List.mem_singleton_self _, rfl⟩)⟩

theorem exportGraph_single (sq : ℚ → ℚ) (it : Item) (v : List ℚ) (cfg : Config) (B : Backends)
    (ent : ℕ) (hemb : it.emb = some v) :
    exportGraph sq [it] cfg B ent =
      .ok ⟨⟨cfg.topK, cfg.minSim, false, "none"⟩, [(it.cid, 1)],
        [⟨0, it.aid, it.cid, none⟩], []⟩ := by
  unfold exportGraph
  rw [if_neg (by simp)]
  rw [show embsOf [it] = some [v] from by rw [embsOf, hemb, embsOf]]
  have hrl : runLayout sq cfg B ent ([v].map (normEmb sq)).length = .ok (none, "none") := by
    unfold runLayout
    rw [if_neg (by simp)]
  dsimp only
  rw [hrl]
  norm_num [neighPairs, mstAll, clusterMst, dedupEdges, clustersLegend, firstDedup,
    List.range_succ, List.enum, List.insertionSort, List.orderedInsert, List.replicate,
    List.count_cons, defaultItem, List.getD, List.filter_cons]

/-- C8 (corrected).  For an input of exactly one item (with an embedding), the
export produces zero edges and a payload with exactly one node and no links;
but the layout does not return a coordinate pair — the layout stage only runs
for `N ≥ 2`, so the single node carries no coordinates and the metadata
records method `"none"` with `included = false`, even when coordinates were
requested and the requested back-end is available. -/
theorem c8_single_item_amended (sq : ℚ → ℚ) (it : Item) (v : List ℚ) (cfg : Config)
    (B : Backends) (ent : ℕ) (hemb : it.emb = some v) :
    exportGraph sq [it] cfg B ent =
      .ok ⟨⟨cfg.topK, cfg.minSim, false, "none"⟩, [(it.cid, 1)],
        [⟨0, it.aid, it.cid, none⟩], []⟩ :=
  exportGraph_single sq it v cfg B ent hemb

/-- Witness for C8 (amended) on a concrete single item with coordinates
requested. -/
theorem c8_single_item_amended_witness :
    (Item.emb ⟨"a", 3, some [1]⟩ = some [1]) ∧
    exportGraph sqrtHints [⟨"a", 3, some [1]⟩]
        ⟨8, 85 / 100, true, Method.fr, 42, 42, 42, 1000, 700, 24, true⟩
        ⟨true, fun _ => some [(0, 0), (1, 0)], fun _ => some [(0, 0), (1, 0)],
          fun _ => some [(0, 0), (1, 0)], fun _ => some [(0, 0), (1, 0)]⟩ 0 =
      .ok ⟨⟨8, 85 / 100, false, "none"⟩, [(3, 1)], [⟨0, "a", 3, none⟩], []⟩ :=
  ⟨rfl, c8_single_item_amended sqrtHints ⟨"a", 3, some [1]⟩ [1] _ _ 0 rfl⟩

/-- Counterexample to C8 as stated: with `N = 1`, coordinates requested
(`include_coords = true`, method `fr`), networkx available and the spring
back-end able to return a layout, the export still attaches no coordinate pair
to the node: the layout stage is skipped entirely (`meta.coords.included =
false`, method `"none"`), contradicting "the layout returns one coordinate
pair". -/
theorem c8_single_item_counterexample :
    exportGraph sqrtHints [⟨"a", 0, some [1]⟩]
        ⟨8, 85 / 100, true, Method.fr, 42, 42, 42, 1000, 700, 24, true⟩
        ⟨true, fun _ => some [(0, 0), (1, 0)], fun _ => some [(0, 0), (1, 0)],
          fun _ => some [(0, 0), (1, 0)], fun _ => some [(0, 0), (1, 0)]⟩ 0 =
      .ok ⟨⟨8, 85 / 100, false, "none"⟩, [(0, 1)], [⟨0, "a", 0, none⟩], []⟩ ∧
    (⟨0, "a", 0, none⟩ : NodeOut).xy = none ∧
    (⟨8, 85 / 100, false, "none"⟩ : MetaOut).coordsIncluded = false :=
  ⟨exportGraph_single sqrtHints ⟨"a", 0, some [1]⟩ [1] _ _ 0 rfl, rfl, rfl⟩

/-- C1 (corrected).  The fallback behaviour actually implemented: (i) a
requested `fa2` whose back-end throws falls back to the spring layout `fr`
(not to umap/pca); (ii) a requested `umap` whose back-end throws falls back to
`pca`; (iii) a missing networkx for `fa2`/`fr` raises (the export fails);
(iv) a failure of the unguarded spring layout itself fails the export;
(v) a failure of the unguarded PCA call fails the export; (vi) on success the
strategy actually used is recorded in `meta.coords.method` and
`meta.coords.included` reflects whether coordinates were attached. -/
theorem c1_layout_fallback_amended (sq : ℚ → ℚ) (cfg : Config) (B : Backends) (ent N : ℕ)
    (hic : cfg.includeCoords = true) (hN : 2 ≤ N) :
    (cfg.coordsMethod = Method.fa2 → B.networkxAvailable = true → B.fa2Layout ent = none →
      ∀ arr, B.frLayout cfg.frSeed = some arr →
        runLayout sq cfg B ent N = .ok (some (finishCoords sq cfg true arr), "fr")) ∧
    (cfg.coordsMethod = Method.umap → B.umapLayout cfg.umapRandomState = none →
      ∀ arr, B.pcaLayout cfg.pcaRandomState = some arr →
        runLayout sq cfg B ent N = .ok (some (finishCoords sq cfg false arr), "pca")) ∧
    ((cfg.coordsMethod = Method.fa2 ∨ cfg.coordsMethod = Method.fr) →
      B.networkxAvailable = false → runLayout sq cfg B ent N = .error
        "coords_method requires networkx") ∧
    (cfg.coordsMethod = Method.fr → B.networkxAvailable = true →
      B.frLayout cfg.frSeed = none →
      runLayout sq cfg B ent N = .error "spring_layout failed") ∧
    (cfg.coordsMethod = Method.pca → B.pcaLayout cfg.pcaRandomState = none →
      runLayout sq cfg B ent N = .error "PCA failed") ∧
    (∀ (items : List Item) (pl : Payload), exportGraph sq items cfg B ent = .ok pl →
      ∃ xys, runLayout sq cfg B ent items.length = .ok (xys, pl.meta.coordsMethod) ∧
        pl.meta.coordsIncluded = xys.isSome) := by
  refine ⟨?_, ?_, ?_, ?_, ?_, ?_⟩
  · intro hm hnet hfa arr hfr
    unfold runLayout
    rw [if_pos ⟨by simp [hic], hN, by simp [hm]⟩, hm]
    simp [hnet, hfa, hfr]
  · intro hm hu arr hp
    unfold runLayout
    rw [if_pos ⟨by simp [hic], hN, by simp [hm]⟩, hm]
    simp [hu, hp]
  · intro hm hnet
    unfold runLayout
    rcases hm with hm | hm <;>
      (rw [if_pos ⟨by simp [hic], hN, by simp [hm]⟩, hm]; simp [hnet])
  · intro hm hnet hfr
    unfold runLayout
    rw [if_pos ⟨by simp [hic], hN, by simp [hm]⟩, hm]
    simp [hnet, hfr]
  · intro hm hp
    unfold runLayout
    rw [if_pos ⟨by simp [hic], hN, by simp [hm]⟩, hm]
    simp [hp]
  · intro items pl h
    unfold exportGraph at h
    by_cases he : items.isEmpty
    · rw [if_pos he] at h; exact absurd h (by simp)
    · rw [if_neg he] at h
      rcases hm : embsOf items with _ | vecs <;> rw [hm] at h
      · exact absurd h (by simp)
      · dsimp only at h
        have hlen : (vecs.map (normEmb sq)).length = items.length := by
          rw [List.length_map, embsOf_length hm]
        rw [hlen] at h
        rcases hr : runLayout sq cfg B ent items.length with e | ⟨xys, mu⟩ <;> rw [hr] at h
        · exact absurd h (by simp)
        · simp only [Except.ok.injEq] at h
          subst h
          exact ⟨xys, rfl, rfl⟩

/-- Witness for C1 (amended): requested `fa2`, networkx available, `fa2`
back-end throwing, spring layout succeeding — the dispatch lands on `"fr"`. -/
theorem c1_layout_fallback_amended_witness :
    ((⟨8, 85 / 100, true, Method.fa2, 42, 42, 42, 1000, 700, 24, true⟩ :
        Config).includeCoords = true) ∧ 2 ≤ 2 ∧
    runLayout sqrtHints ⟨8, 85 / 100, true, Method.fa2, 42, 42, 42, 1000, 700, 24, true⟩
        ⟨true, fun _ => none, fun _ => some [(0, 0), (1, 1)], fun _ => none, fun _ => none⟩
        0 2 =
      .ok (some (finishCoords sqrtHints
        ⟨8, 85 / 100, true, Method.fa2, 42, 42, 42, 1000, 700, 24, true⟩ true
        [(0, 0), (1, 1)]), "fr") :=
  ⟨rfl, by norm_num,
    (c1_layout_fallback_amended sqrtHints _ _ 0 2 rfl (by norm_num)).1 rfl rfl rfl
      [(0, 0), (1, 1)] rfl⟩

/-- Counterexample to C1 as stated: a requested `fr` layout whose back-end
cannot run (networkx missing) does not fall through to the
neighbor-embedding/PCA strategies — the whole export fails with the explicit
`RuntimeError`. -/
theorem c1_layout_fallback_counterexample :
    exportGraph sqrtHints [⟨"a", 1, some [1, 0]⟩, ⟨"b", 2, some [0, 1]⟩]
        ⟨8, 85 / 100, true, Method.fr, 42, 42, 42, 1000, 700, 24, true⟩
        ⟨false, fun _ => none, fun _ => none, fun _ => none,
          fun _ => some [(0, 0), (1, 1)]⟩ 0 =
      .error "coords_method requires networkx" := by
  unfold exportGraph
  rw [if_neg (by simp)]
  rw [show embsOf [⟨"a", 1, some [1, 0]⟩, ⟨"b", 2, some [0, 1]⟩] =
    some [[1, 0], [0, 1]] from rfl]
  dsimp only
  rw [show runLayout sqrtHints
      ⟨8, 85 / 100, true, Method.fr, 42, 42, 42, 1000, 700, 24, true⟩
      ⟨false, fun _ => none, fun _ => none, fun _ => none, fun _ => some [(0, 0), (1, 1)]⟩ 0
      (List.map (normEmb sqrtHints) [[1, 0], [0, 1]]).length =
      .error "coords_method requires networkx" from by
    unfold runLayout
    rw [if_pos ⟨by simp, by simp, by simp⟩]
    rfl]

theorem runLayout_entropy_eq (sq : ℚ → ℚ) (cfg : Config) (B : Backends) (e₁ e₂ : ℕ)
    (h : cfg.coordsMethod ≠ Method.fa2) :
    ∀ N, runLayout sq cfg B e₁ N = runLayout sq cfg B e₂ N := by
  intro N
  unfold runLayout
  rcases hm : cfg.coordsMethod with _ | _ | _ | _ | _
  · exact absurd hm h
  · rfl
  · rfl
  · rfl
  · rfl

/-- C2 (corrected).  The spring layout, the neighbor embedding and the
projection are each invoked with the caller-supplied seed the code passes them
(`seed=fr_seed`, `random_state=umap_random_state`,
`random_state=pca_random_state`), but the ForceAtlas2 call passes no seed and
starts from ambient randomness (`pos=None`): whenever the requested method is
not `fa2`, two invocations of the export on identical input — differing only
in ambient randomness — produce identical output (timestamp not modelled). -/
theorem c2_determinism_amended (sq : ℚ → ℚ) (items : List Item) (cfg : Config) (B : Backends)
    (e₁ e₂ : ℕ) (h : cfg.coordsMethod ≠ Method.fa2) :
    exportGraph sq items cfg B e₁ = exportGraph sq items cfg B e₂ := by
  unfold exportGraph
  simp only [runLayout_entropy_eq sq cfg B e₁ e₂ h]

/-- Witness for C2 (amended): a concrete spring-layout run is reproducible
across ambient randomness. -/
theorem c2_determinism_amended_witness :
    ((⟨8, 85 / 100, true, Method.fr, 42, 42, 42, 1000, 700, 24, true⟩ :
        Config).coordsMethod ≠ Method.fa2) ∧
    exportGraph sqrtHints [⟨"a", 1, some [1, 0]⟩, ⟨"b", 2, some [0, 1]⟩]
        ⟨8, 85 / 100, true, Method.fr, 42, 42, 42, 1000, 700, 24, true⟩
        ⟨true, fun e => some [((e : ℚ), 0), (1, 1)], fun _ => some [(0, 0), (1, 1)],
          fun _ => none, fun _ => none⟩ 0 =
      exportGraph sqrtHints [⟨"a", 1, some [1, 0]⟩, ⟨"b", 2, some [0, 1]⟩]
        ⟨8, 85 / 100, true, Method.fr, 42, 42, 42, 1000, 700, 24, true⟩
        ⟨true, fun e => some [((e : ℚ), 0), (1, 1)], fun _ => some [(0, 0), (1, 1)],
          fun _ => none, fun _ => none⟩ 1 :=
  ⟨by simp, c2_determinism_amended sqrtHints _ _ _ 0 1 (by simp)⟩

/-- Counterexample to C2 as stated: with the `fa2` strategy requested, the
ForceAtlas2 call receives no caller seed, so its result may depend on ambient
randomness; under a back-end whose layout depends on that ambient randomness,
two invocations of the export on identical input produce different payloads
(the node coordinates differ). -/
theorem c2_determinism_counterexample :
    exportGraph sqrtHints [⟨"a", 1, some [1, 0]⟩, ⟨"b", 2, some [0, 1]⟩]
        ⟨8, 85 / 100, true, Method.fa2, 42, 42, 42, 1000, 700, 24, true⟩
        ⟨true, fun e => some (if e = 0 then [(0, 0), (1, 0)] else [(0, 1), (0, 0)]),
          fun _ => none, fun _ => none, fun _ => none⟩ 0 ≠
      exportGraph sqrtHints [⟨"a", 1, some [1, 0]⟩, ⟨"b", 2, some [0, 1]⟩]
        ⟨8, 85 / 100, true, Method.fa2, 42, 42, 42, 1000, 700, 24, true⟩
        ⟨true, fun e => some (if e = 0 then [(0, 0), (1, 0)] else [(0, 1), (0, 0)]),
          fun _ => none, fun _ => none, fun _ => none⟩ 1 := by
  have hs0 : spread sqrtHints [((0 : ℚ), (0 : ℚ)), (1, 0)] (1 / 100) 1 =
      [((0 : ℚ), (0 : ℚ)), (1, 0)] := by
    apply spread_pair_fix
    rintro ⟨hlt, _⟩
    norm_num [dist2] at hlt
  have hs1 : spread sqrtHints [((0 : ℚ), (1 : ℚ)), (0, 0)] (1 / 100) 1 =
      [((0 : ℚ), (1 : ℚ)), (0, 0)] := by
    apply spread_pair_fix
    rintro ⟨hlt, _⟩
    norm_num [dist2] at hlt
  have hf0 : finishCoords sqrtHints
      ⟨8, 85 / 100, true, Method.fa2, 42, 42, 42, 1000, 700, 24, true⟩ true
      [(0, 0), (1, 0)] = [(24, 24), (976, 24)] := by
    unfold finishCoords
    rw [show normalizeCoords [((0 : ℚ), (0 : ℚ)), (1, 0)] = [((0 : ℚ), (0 : ℚ)), (1, 0)] from
      by norm_num [normalizeCoords, listMin, listMax, eps9]]
    dsimp only
    rw [if_pos rfl, hs0]
    norm_num [canvasMap, truncQ]
  have hf1 : finishCoords sqrtHints
      ⟨8, 85 / 100, true, Method.fa2, 42, 42, 42, 1000, 700, 24, true⟩ true
      [(0, 1), (0, 0)] = [(24, 676), (24, 24)] := by
    unfold finishCoords
    rw [show normalizeCoords [((0 : ℚ), (1 : ℚ)), (0, 0)] = [((0 : ℚ), (1 : ℚ)), (0, 0)] from
      by norm_num [normalizeCoords, listMin, listMax, eps9]]
    dsimp only
    rw [if_pos rfl, hs1]
    norm_num [canvasMap, truncQ]
  have hrl0 : runLayout sqrtHints
      ⟨8, 85 / 100, true, Method.fa2, 42, 42, 42, 1000, 700, 24, true⟩
      ⟨true, fun e => some (if e = 0 then [(0, 0), (1, 0)] else [(0, 1), (0, 0)]),
        fun _ => none, fun _ => none, fun _ => none⟩ 0
      (List.map (normEmb sqrtHints) [[1, 0], [0, 1]]).length = .ok (some [(24, 24), (976, 24)], "fa2") := by
    unfold runLayout
    rw [if_pos ⟨by simp, by simp, by simp⟩]
    dsimp only
    rw [if_pos (rfl : (0 : ℕ) = 0)]
    rw [hf0]
    rfl
  have hrl1 : runLayout sqrtHints
      ⟨8, 85 / 100, true, Method.fa2, 42, 42, 42, 1000, 700, 24, true⟩
      ⟨true, fun e => some (if e = 0 then [(0, 0), (1, 0)] else [(0, 1), (0, 0)]),
        fun _ => none, fun _ => none, fun _ => none⟩ 1
      (List.map (normEmb sqrtHints) [[1, 0], [0, 1]]).length = .ok (some [(24, 676), (24, 24)], "fa2") := by
    unfold runLayout
    rw [if_pos ⟨by simp, by simp, by simp⟩]
    dsimp only
    rw [if_neg (by omega : ¬(1 : ℕ) = 0)]
    rw [hf1]
    rfl
  intro hcontra
  rw [exportGraph, exportGraph, if_neg (by simp), if_neg (by simp),
    show embsOf [⟨"a", 1, some [1, 0]⟩, ⟨"b", 2, some [0, 1]⟩] = some [[1, 0], [0, 1]] from rfl]
    at hcontra
  dsimp only at hcontra
  rw [hrl0, hrl1] at hcontra
  dsimp only at hcontra
  simp only [Except.ok.injEq, Payload.mk.injEq, List.map_inj_left, List.length_map] at hcontra
  obtain ⟨_, _, hnodes, _⟩ := hcontra
  have h0 := hnodes 1 (by norm_num [List.length_map])
  norm_num [NodeOut.mk.injEq] at h0

/-! ## Theorems: ConnectivityAugmenter (claim C4) -/

theorem Grown.root_mem {idxs : List ℕ} {r : ℕ} {t : Finset ℕ} {es : List (ℕ × ℕ × ℚ)}
    (h : Grown idxs r t es) : r ∈ idxs := by
  induction h with
  | init hr => exact hr
  | step _ _ _ _ ih => exact ih

theorem Grown.tree_subset {idxs : List ℕ} {r : ℕ} {t : Finset ℕ} {es : List (ℕ × ℕ × ℚ)}
    (h : Grown idxs r t es) : ∀ x ∈ t, x ∈ idxs := by
  induction h with
  | init hr =>
    intro x hx
    rw [Finset.mem_singleton] at hx
    exact hx ▸ hr
  | step _ hu hv hvi ih =>
    intro x hx
    rcases Finset.mem_insert.mp hx with rfl | hx
    · exact hvi
    · exact ih x hx

theorem Grown.count {idxs : List ℕ} {r : ℕ} {t : Finset ℕ} {es : List (ℕ × ℕ × ℚ)}
    (h : Grown idxs r t es) : es.length + 1 = t.card := by
  induction h with
  | init _ => simp
  | step _ hu hv hvi ih =>
    rw [List.length_append, Finset.card_insert_of_not_mem hv]
    simpa using ih

theorem Grown.endpoints {idxs : List ℕ} {r : ℕ} {t : Finset ℕ} {es : List (ℕ × ℕ × ℚ)}
    (h : Grown idxs r t es) : ∀ e ∈ es, e.1 ∈ t ∧ e.2.1 ∈ t := by
  induction h with
  | init _ => intro e he; simp at he
  | step _ hu hv hvi ih =>
    intro e he
    rcases List.mem_append.mp he with he | he
    · obtain ⟨h1, h2⟩ := ih e he
      exact ⟨Finset.mem_insert_of_mem h1, Finset.mem_insert_of_mem h2⟩
    · rw [List.mem_singleton] at he
      subst he
      exact ⟨Finset.mem_insert_of_mem hu, Finset.mem_insert_self _ _⟩

theorem exists_edge_into {V : Type} {G : SimpleGraph V} :
    ∀ {a b : V} (p : G.Walk a b), a ≠ b → ∃ y, G.Adj y b ∧ s(y, b) ∈ p.edges := by
  intro a b p
  induction p with
  | nil => intro h; exact absurd rfl h
  | @cons x c b h q ih =>
    intro _
    by_cases hcb : c = b
    · subst hcb
      exact ⟨x, h, by simp⟩
    · obtain ⟨y, hy, hm⟩ := ih hcb
      exact ⟨y, hy, by simp [hm]⟩

theorem isAcyclic_grow {V : Type} [DecidableEq V] {G G' : SimpleGraph V} {u v : V}
    (huv : u ≠ v)
    (hadj : ∀ a b, G'.Adj a b ↔ G.Adj a b ∨ (a = u ∧ b = v) ∨ (a = v ∧ b = u))
    (hiso : ∀ w, ¬G.Adj v w) (hG : G.IsAcyclic) : G'.IsAcyclic := by
  intro w c hc
  by_cases hv : v ∈ c.support
  · have hc' := hc.rotate hv
    cases hcc : c.rotate hv with
    | nil =>
      rw [hcc] at hc'
      exact SimpleGraph.Walk.IsCycle.not_of_nil hc'
    | @cons _ x _ h p =>
      rw [hcc] at hc'
      rw [SimpleGraph.Walk.cons_isCycle_iff] at hc'
      obtain ⟨hpath, hedge⟩ := hc'
      rcases (hadj v x).mp h with hg | ⟨hvu, _⟩ | ⟨_, hxu⟩
      · exact hiso _ hg
      · exact huv hvu.symm
      · subst hxu
        obtain ⟨y, hyadj, hym⟩ := exists_edge_into p huv
        rcases (hadj y v).mp hyadj with hg | ⟨hyu, _⟩ | ⟨_, hvu⟩
        · exact hiso y hg.symm
        · subst hyu
          rw [Sym2.eq_swap] at hym
          exact hedge hym
        · exact huv hvu.symm
  · have hedges : ∀ e ∈ c.edges, e ∈ G.edgeSet := by
      intro e
      refine Sym2.ind (fun a b he => ?_) e
      have hadj' := SimpleGraph.Walk.adj_of_mem_edges c he
      rcases (hadj a b).mp hadj' with hg | ⟨_, hbv⟩ | ⟨hav, _⟩
      · exact hg
      · exact absurd (SimpleGraph.Walk.snd_mem_support_of_mem_edges c (hbv ▸ he)) hv
      · exact absurd (SimpleGraph.Walk.fst_mem_support_of_mem_edges c (hav ▸ he)) hv
    exact hG (c.transfer G hedges) (hc.transfer hedges)

theorem Grown.graph_facts {idxs : List ℕ} {r : ℕ} {t : Finset ℕ} {es : List (ℕ × ℕ × ℚ)}
    (h : Grown idxs r t es) (hr : r ∈ idxs) :
    (mstGraph es idxs).IsAcyclic ∧
    (∀ x (hx : x ∈ idxs), x ∈ t →
      (mstGraph es idxs).Reachable ⟨r, hr⟩ ⟨x, hx⟩) := by
  induction h with
  | init hr' =>
    constructor
    · rw [show mstGraph [] idxs = ⊥ from by
        ext a b
        simp [mstGraph]]
      exact SimpleGraph.isAcyclic_bot
    · intro x hx hxt
      rw [Finset.mem_singleton] at hxt
      subst hxt
      rfl
  | @step t es u v s hG hu hv hvi ih =>
    have hui : u ∈ idxs := hG.tree_subset u hu
    have hle : mstGraph es idxs ≤ mstGraph (es ++ [(u, v, s)]) idxs := by
      rintro a b ⟨hne, w, hw⟩
      refine ⟨hne, w, ?_⟩
      rcases hw with hw | hw
      · exact Or.inl (List.mem_append_left _ hw)
      · exact Or.inr (List.mem_append_left _ hw)
    obtain ⟨hac, hreach⟩ := ih
    have hneuv : (⟨u, hui⟩ : {x : ℕ // x ∈ idxs}) ≠ ⟨v, hvi⟩ := by
      intro hc
      exact hv (Subtype.mk_eq_mk.mp hc ▸ hu)
    have hadj : ∀ a b : {x : ℕ // x ∈ idxs},
        (mstGraph (es ++ [(u, v, s)]) idxs).Adj a b ↔
          (mstGraph es idxs).Adj a b ∨
          (a = ⟨u, hui⟩ ∧ b = ⟨v, hvi⟩) ∨ (a = ⟨v, hvi⟩ ∧ b = ⟨u, hui⟩) := by
      intro a b
      constructor
      · rintro ⟨hne, w, hw | hw⟩
        · rcases List.mem_append.mp hw with hw | hw
          · exact Or.inl ⟨hne, w, Or.inl hw⟩
          · rw [List.mem_singleton, Prod.ext_iff, Prod.ext_iff] at hw
            obtain ⟨h1, h2, _⟩ := hw
            exact Or.inr (Or.inl ⟨Subtype.ext h1, Subtype.ext h2⟩)
        · rcases List.mem_append.mp hw with hw | hw
          · exact Or.inl ⟨hne, w, Or.inr hw⟩
          · rw [List.mem_singleton, Prod.ext_iff, Prod.ext_iff] at hw
            obtain ⟨h1, h2, _⟩ := hw
            exact Or.inr (Or.inr ⟨Subtype.ext h2, Subtype.ext h1⟩)
      · rintro (⟨hne, w, hw⟩ | ⟨rfl, rfl⟩ | ⟨rfl, rfl⟩)
        · refine ⟨hne, w, ?_⟩
          rcases hw with hw | hw
          · exact Or.inl (List.mem_append_left _ hw)
          · exact Or.inr (List.mem_append_left _ hw)
        · exact ⟨fun hc => hv ((show u = v from hc) ▸ hu), s,
            Or.inl (List.mem_append_right _ (List.mem_singleton_self _))⟩
        · exact ⟨fun hc => hv ((show v = u from hc).symm ▸ hu), s,
            Or.inr (List.mem_append_right _ (List.mem_singleton_self _))⟩
    constructor
    · refine isAcyclic_grow hneuv hadj ?_ hac
      rintro w ⟨hne, w', hw | hw⟩
      · exact hv (hG.endpoints _ hw).1
      · exact hv (hG.endpoints _ hw).2
    · intro x hx hxt
      rcases Finset.mem_insert.mp hxt with rfl | hxt
      · refine ((hreach u hui hu).mono hle).trans ?_
        exact SimpleGraph.Adj.reachable ((hadj _ _).mpr (Or.inr (Or.inl ⟨rfl, rfl⟩)))
      · exact (hreach x hx hxt).mono hle

theorem mem_pushEdges (X : List (List ℚ)) (frm : ℕ) :
    ∀ (targets : List ℕ) (h : List HeapE) (e : HeapE),
      e ∈ pushEdges X frm targets h ↔ e ∈ h ∨ ∃ w ∈ targets,
        e = (1 - dotl (X.getD frm []) (X.getD w []), frm, w,
          dotl (X.getD frm []) (X.getD w [])) := by
  intro targets
  induction targets with
  | nil =>
    intro h e
    simp [pushEdges]
  | cons w ts ih =>
    intro h e
    have hstep : pushEdges X frm (w :: ts) h = pushEdges X frm ts
        (h.orderedInsert heapLE (1 - dotl (X.getD frm []) (X.getD w []), frm, w,
          dotl (X.getD frm []) (X.getD w []))) := by
      unfold pushEdges
      rw [List.foldl_cons]
    rw [hstep, ih, List.mem_orderedInsert]
    constructor
    · rintro ((rfl | he) | ⟨w', hw', rfl⟩)
      · exact Or.inr ⟨w, List.mem_cons_self _ _, rfl⟩
      · exact Or.inl he
      · exact Or.inr ⟨w', List.mem_cons_of_mem _ hw', rfl⟩
    · rintro (he | ⟨w', hw', rfl⟩)
      · exact Or.inl (Or.inr he)
      · rcases List.mem_cons.mp hw' with rfl | hw'
        · exact Or.inl (Or.inl rfl)
        · exact Or.inr ⟨w', hw', rfl⟩

theorem primLoop_post (X : List (List ℚ)) (idxs : List ℕ) (r : ℕ) (hnd : idxs.Nodup) :
    ∀ s : PrimState, PrimInv X idxs r s →
      PrimInv X idxs r (primLoop X idxs s) ∧
      idxs.length ≤ (primLoop X idxs s).tree.card := by
  intro s
  induction s using primLoop.induct X idxs with
  | case1 s hlt hheap =>
    intro hinv
    exfalso
    obtain ⟨h1, h2, h3, h4⟩ := hinv
    have hexists : ∃ w ∈ idxs, w ∉ s.tree := by
      by_contra hall
      push_neg at hall
      have hsub : idxs.toFinset ⊆ s.tree := fun x hx => hall x (List.mem_toFinset.mp hx)
      have hcard := Finset.card_le_card hsub
      rw [List.toFinset_card_of_nodup hnd] at hcard
      omega
    obtain ⟨w, hwi, hwt⟩ := hexists
    obtain ⟨e, he, _⟩ := h2 w hwi hwt
    rw [hheap] at he
    exact absurd he (List.not_mem_nil _)
  | case2 s hlt e rest hheap hv ih =>
    intro hinv
    obtain ⟨h1, h2, h3, h4⟩ := hinv
    have hstep : primLoop X idxs s = primLoop X idxs ⟨s.tree, rest, s.mst⟩ := by
      rw [primLoop]
      rw [dif_pos hlt, hheap]
      dsimp only
      rw [dif_pos hv]
    rw [hstep]
    apply ih
    refine ⟨?_, ?_, h3, h4⟩
    · intro e' he'
      exact h1 e' (hheap ▸ List.mem_cons_of_mem _ he')
    · intro w hwi hwt
      obtain ⟨e', he', htgt⟩ := h2 w hwi hwt
      rw [hheap] at he'
      rcases List.mem_cons.mp he' with rfl | he'
      · exact absurd (htgt ▸ hv) hwt
      · exact ⟨e', he', htgt⟩
  | case3 s hlt e rest hheap hv t' ih =>
    intro hinv
    obtain ⟨h1, h2, h3, h4⟩ := hinv
    obtain ⟨heu, hevi, hews, hewd⟩ := h1 e (hheap ▸ List.mem_cons_self _ _)
    have hstep : primLoop X idxs s = primLoop X idxs
        ⟨insert e.2.2.1 s.tree,
          pushEdges X e.2.2.1
            (idxs.filter (fun w => decide (w ∉ insert e.2.2.1 s.tree))) rest,
          s.mst ++ [(e.2.1, e.2.2.1, e.2.2.2)]⟩ := by
      rw [primLoop]
      rw [dif_pos hlt, hheap]
      dsimp only
      rw [dif_neg hv]
    rw [hstep]
    apply ih
    refine ⟨?_, ?_, ?_, ?_⟩
    · intro e' he'
      rw [mem_pushEdges] at he'
      rcases he' with he' | ⟨w, hw, rfl⟩
      · obtain ⟨hu', hvi', hws', hwd'⟩ := h1 e' (hheap ▸ List.mem_cons_of_mem _ he')
        exact ⟨Finset.mem_insert_of_mem hu', hvi', hws', hwd'⟩
      · rw [List.mem_filter] at hw
        exact ⟨Finset.mem_insert_self _ _, hw.1, rfl, rfl⟩
    · intro w hwi hwt
      refine ⟨(1 - dotl (X.getD e.2.2.1 []) (X.getD w []), e.2.2.1, w,
        dotl (X.getD e.2.2.1 []) (X.getD w [])), ?_, rfl⟩
      rw [mem_pushEdges]
      exact Or.inr ⟨w, List.mem_filter.mpr ⟨hwi, by simpa using hwt⟩, rfl⟩
    · exact Grown.step h3 heu hv hevi
    · intro e' he'
      rcases List.mem_append.mp he' with he' | he'
      · exact h4 e' he'
      · rw [List.mem_singleton] at he'
        subst he'
        exact hews
  | case4 s hge =>
    intro hinv
    have hfix : primLoop X idxs s = s := by
      rw [primLoop]
      rw [dif_neg hge]
    rw [hfix]
    exact ⟨hinv, by omega⟩

theorem clusterMst_facts (X : List (List ℚ)) (idxs : List ℕ) (hnd : idxs.Nodup)
    (hM : 2 ≤ idxs.length) :
    (clusterMst X idxs).length = idxs.length - 1 ∧
    (mstGraph (clusterMst X idxs) idxs).Connected ∧
    (mstGraph (clusterMst X idxs) idxs).IsAcyclic ∧
    (∀ e ∈ clusterMst X idxs, e.2.2 = dotl (X.getD e.1 []) (X.getD e.2.1 [])) := by
  cases idxs with
  | nil => simp at hM
  | cons r rest =>
    have hr : r ∈ r :: rest := List.mem_cons_self _ _
    have hcm : clusterMst X (r :: rest) =
        (primLoop X (r :: rest) ⟨{r}, pushEdges X r rest [], []⟩).mst := by
      unfold clusterMst
      rw [if_neg (by simp only [List.length_cons] at hM ⊢; omega)]
    have hinv0 : PrimInv X (r :: rest) r ⟨{r}, pushEdges X r rest [], []⟩ := by
      refine ⟨?_, ?_, Grown.init hr, ?_⟩
      · intro e he
        rw [mem_pushEdges] at he
        rcases he with he | ⟨w, hw, rfl⟩
        · simp at he
        · exact ⟨Finset.mem_singleton_self _, List.mem_cons_of_mem _ hw, rfl, rfl⟩
      · intro w hwi hwt
        rw [Finset.mem_singleton] at hwt
        have hwr : w ∈ rest := by
          rcases List.mem_cons.mp hwi with rfl | hw
          · exact absurd rfl hwt
          · exact hw
        refine ⟨(1 - dotl (X.getD r []) (X.getD w []), r, w,
          dotl (X.getD r []) (X.getD w [])), ?_, rfl⟩
        rw [mem_pushEdges]
        exact Or.inr ⟨w, hwr, rfl⟩
      · intro e he
        simp at he
    obtain ⟨⟨h1', h2', h3', h4'⟩, hcard⟩ :=
      primLoop_post X (r :: rest) r hnd ⟨{r}, pushEdges X r rest [], []⟩ hinv0
    have hsub : (primLoop X (r :: rest) ⟨{r}, pushEdges X r rest [], []⟩).tree ⊆
        (r :: rest).toFinset := fun x hx => List.mem_toFinset.mpr (h3'.tree_subset x hx)
    have htree : (primLoop X (r :: rest) ⟨{r}, pushEdges X r rest [], []⟩).tree =
        (r :: rest).toFinset := by
      refine Finset.eq_of_subset_of_card_le hsub ?_
      rw [List.toFinset_card_of_nodup hnd]
      exact hcard
    have hcardeq : (primLoop X (r :: rest) ⟨{r}, pushEdges X r rest [], []⟩).tree.card =
        (r :: rest).length := by
      rw [htree, List.toFinset_card_of_nodup hnd]
    obtain ⟨hac, hreach⟩ := h3'.graph_facts hr
    refine ⟨?_, ?_, by rw [hcm]; exact hac, by rw [hcm]; exact h4'⟩
    · rw [hcm]
      have := h3'.count
      omega
    · rw [hcm]
      have hne : Nonempty {x : ℕ // x ∈ r :: rest} := ⟨⟨r, hr⟩⟩
      refine ⟨?_⟩
      intro a b
      have hmem : ∀ x : {x : ℕ // x ∈ r :: rest},
          x.val ∈ (primLoop X (r :: rest) ⟨{r}, pushEdges X r rest [], []⟩).tree := by
        intro x
        rw [htree, List.mem_toFinset]
        exact x.prop
      exact (hreach a.val a.prop (hmem a)).symm.trans (hreach b.val b.prop (hmem b))

/-- C4 (confirmed).  For every duplicate-free cluster member list with
`M ≥ 2` members, `_cluster_mst` returns exactly `M − 1` edges; the subgraph
those edges induce on the members is connected and acyclic (a spanning tree);
every emitted edge carries its similarity weight (the dot product of the two
member rows, not the complement distance); and member lists of size ≤ 1
contribute no edges. -/
theorem c4_cluster_spanning_tree (X : List (List ℚ)) (idxs : List ℕ) (hnd : idxs.Nodup)
    (hM : 2 ≤ idxs.length) :
    ((clusterMst X idxs).length = idxs.length - 1 ∧
      (mstGraph (clusterMst X idxs) idxs).Connected ∧
      (mstGraph (clusterMst X idxs) idxs).IsAcyclic ∧
      (∀ e ∈ clusterMst X idxs, e.2.2 = dotl (X.getD e.1 []) (X.getD e.2.1 []))) ∧
    (∀ idxs' : List ℕ, idxs'.length ≤ 1 → clusterMst X idxs' = []) := by
  refine ⟨clusterMst_facts X idxs hnd hM, ?_⟩
  intro idxs' h
  unfold clusterMst
  rw [if_pos h]

/-- Witness for C4 on a concrete 3-member cluster. -/
theorem c4_cluster_spanning_tree_witness :
    ([0, 1, 2] : List ℕ).Nodup ∧ 2 ≤ ([0, 1, 2] : List ℕ).length ∧
    ((clusterMst [[(1 : ℚ), 0], [0, 1], [3 / 5, 4 / 5]] [0, 1, 2]).length =
        ([0, 1, 2] : List ℕ).length - 1 ∧
      (mstGraph (clusterMst [[(1 : ℚ), 0], [0, 1], [3 / 5, 4 / 5]] [0, 1, 2])
        [0, 1, 2]).Connected ∧
      (mstGraph (clusterMst [[(1 : ℚ), 0], [0, 1], [3 / 5, 4 / 5]] [0, 1, 2])
        [0, 1, 2]).IsAcyclic ∧
      (∀ e ∈ clusterMst [[(1 : ℚ), 0], [0, 1], [3 / 5, 4 / 5]] [0, 1, 2],
        e.2.2 = dotl ([[(1 : ℚ), 0], [0, 1], [3 / 5, 4 / 5]].getD e.1 [])
          ([[(1 : ℚ), 0], [0, 1], [3 / 5, 4 / 5]].getD e.2.1 []))) ∧
    (∀ idxs' : List ℕ, idxs'.length ≤ 1 →
      clusterMst [[(1 : ℚ), 0], [0, 1], [3 / 5, 4 / 5]] idxs' = []) :=
  ⟨by decide, by decide,
    c4_cluster_spanning_tree [[(1 : ℚ), 0], [0, 1], [3 / 5, 4 / 5]] [0, 1, 2]
      (by decide) (by decide)⟩

end ExportGraph
